import Mathlib

set_option maxHeartbeats 1000000

/-!
Verification development for the adjacency-map graph store
(`turbopack/crates/turbo-tasks/src/graph/adjacency_map.rs`) and the
ecmascript reference-extraction core
(`crates/turbopack/src/ecmascript/references.rs`).

The Rust code is shallowly embedded: the `HashMap<T, Vec<T>>` of the
adjacency map becomes an association list (only keyed `get`/`entry` are
ever used, so hash order is irrelevant), the iterator state machines
become well-founded recursive functions over an explicit stack/queue, and
the async reference extractor becomes pure functions over an embedded
value and AST model.
-/

/-! ### Adjacency map: data -/

/-- The two passes of the reverse-topological traversal
(`ReverseTopologicalPass::Pre` / `Post`). -/
inductive Pass where
  | pre
  | post
deriving DecidableEq, Repr

/-- `AdjacencyMap<T>`: node to ordered successor list, plus ordered roots.
The Rust `HashMap` is embedded as an association list. -/
structure AdjacencyMap (T : Type) where
  adjacency_map : List (T × List T)
  roots : List T
deriving Repr

/-- Keyed lookup in the association list (`HashMap::get`). -/
def lookupAdj {T : Type} [DecidableEq T] : List (T × List T) → T → Option (List T)
  | [], _ => none
  | (k, vs) :: rest, x => if k = x then some vs else lookupAdj rest x

/-- `entry(from).or_insert_with(..).push(node)`: append `node` to the
successor list of `k`, creating the entry if absent. -/
def addToKey {T : Type} [DecidableEq T] : List (T × List T) → T → T → List (T × List T)
  | [], k, n => [(k, [n])]
  | (k', vs) :: rest, k, n =>
    if k' = k then (k', vs ++ [n]) :: rest else (k', vs) :: addToKey rest k n

/-- `AdjacencyMap::insert(from_handle, node)`: records one directed edge
(or one root when `from_handle` is `None`). -/
def AdjacencyMap.insert {T : Type} [DecidableEq T] (m : AdjacencyMap T)
    (from_handle : Option T) (node : T) : AdjacencyMap T :=
  match from_handle with
  | some f => { m with adjacency_map := addToKey m.adjacency_map f node }
  | none => { m with roots := m.roots ++ [node] }

/-- The edge relation recorded in an adjacency list: `v` is in the successor
list of `u`. -/
def edgeRel {T : Type} [DecidableEq T] (adj : List (T × List T)) (u v : T) : Prop :=
  ∃ vs, lookupAdj adj u = some vs ∧ v ∈ vs

instance {T : Type} [DecidableEq T] (adj : List (T × List T)) (u v : T) :
    Decidable (edgeRel adj u v) :=
  match h : lookupAdj adj u with
  | none => isFalse (by simp [edgeRel, h])
  | some vs =>
    if hv : v ∈ vs then isTrue ⟨vs, h, hv⟩ else isFalse (by simp [edgeRel, h, hv])

/-- Reachability along recorded edges (reflexive-transitive closure). -/
def Reaches {T : Type} [DecidableEq T] (adj : List (T × List T)) (u v : T) : Prop :=
  Relation.ReflTransGen (edgeRel adj) u v

/-- A node is reachable from the roots of the map. -/
def reachableFrom {T : Type} [DecidableEq T] (m : AdjacencyMap T) (x : T) : Prop :=
  ∃ r ∈ m.roots, Reaches m.adjacency_map r x

/-! ### Termination measures -/

/-- Nodes occurring on a traversal stack. -/
def stackNodes {T : Type} [DecidableEq T] (stack : List (Pass × T)) : Finset T :=
  (stack.map Prod.snd).toFinset

/-- Nodes occurring as targets on the BFS queue. -/
def queueNodes {T : Type} [DecidableEq T] (queue : List (Option T × T)) : Finset T :=
  (queue.map Prod.snd).toFinset

/-- Nodes occurring in some successor list of the adjacency list. -/
def adjVals {T : Type} [DecidableEq T] (adj : List (T × List T)) : Finset T :=
  adj.foldr (fun p acc => p.2.toFinset ∪ acc) ∅

/-- Length of the successor list of `x` (0 when absent). -/
def lookupLen {T : Type} [DecidableEq T] (adj : List (T × List T)) (x : T) : Nat :=
  match lookupAdj adj x with
  | some ns => ns.length
  | none => 0

/-- Potential of an unvisited node: expanding it removes it from the
unvisited set but pushes at most `lookupLen + 1` stack entries. -/
def nodeWeight {T : Type} [DecidableEq T] (adj : List (T × List T)) (x : T) : Nat :=
  lookupLen adj x + 2

/-- Termination potential of the reverse-topological iterator state. -/
def rtMeasure {T : Type} [DecidableEq T] (adj : List (T × List T))
    (stack : List (Pass × T)) (visited : Finset T) : Nat :=
  stack.length + Finset.sum ((adjVals adj ∪ stackNodes stack) \ visited) (nodeWeight adj)

/-- Termination potential of the breadth-first iterator state. -/
def bfsMeasure {T : Type} [DecidableEq T] (adj : List (T × List T))
    (queue : List (Option T × T)) (visited : Finset T) : Nat :=
  queue.length + Finset.sum ((adjVals adj ∪ queueNodes queue) \ visited) (nodeWeight adj)

/-! ### The reverse-topological iterator

`ReverseTopologicalIter::next` and `IntoReverseTopologicalIter::next` are
the same algorithm (one borrows, one owns); both are embedded as `rtRun`,
which returns the whole emitted sequence.  The Lean list head is the Rust
stack top (`Vec::pop` pops from the end, where pushes occur, so pushing
`neighbors.rev()` puts the first neighbor on top). -/

def rtRun {T : Type} [DecidableEq T] (adj : List (T × List T))
    (stack : List (Pass × T)) (visited : Finset T) : List T :=
  match stack with
  | [] => []
  | (Pass.post, x) :: rest => x :: rtRun adj rest visited
  | (Pass.pre, x) :: rest =>
    if hx : x ∈ visited then rtRun adj rest visited
    else
      match hl : lookupAdj adj x with
      | none => x :: rtRun adj rest (insert x visited)
      | some ns =>
        rtRun adj (ns.map (fun n => (Pass.pre, n)) ++ (Pass.post, x) :: rest)
          (insert x visited)
termination_by rtMeasure adj stack visited
decreasing_by
  · simp only [rtMeasure, List.length_cons]
    have hsub : (adjVals adj ∪ stackNodes rest) \ visited ⊆
        (adjVals adj ∪ stackNodes ((Pass.post, x) :: rest)) \ visited := by
      apply Finset.sdiff_subset_sdiff _ (le_refl _)
      apply Finset.union_subset_union (le_refl _)
      simp only [stackNodes, List.map_cons, List.toFinset_cons]
      exact Finset.subset_insert _ _
    have hsum : Finset.sum ((adjVals adj ∪ stackNodes rest) \ visited) (nodeWeight adj) ≤
        Finset.sum ((adjVals adj ∪ stackNodes ((Pass.post, x) :: rest)) \ visited)
          (nodeWeight adj) :=
      Finset.sum_le_sum_of_subset hsub
    omega
  · simp only [rtMeasure, List.length_cons]
    have hsub : (adjVals adj ∪ stackNodes rest) \ visited ⊆
        (adjVals adj ∪ stackNodes ((Pass.pre, x) :: rest)) \ visited := by
      apply Finset.sdiff_subset_sdiff _ (le_refl _)
      apply Finset.union_subset_union (le_refl _)
      simp only [stackNodes, List.map_cons, List.toFinset_cons]
      exact Finset.subset_insert _ _
    have hsum : Finset.sum ((adjVals adj ∪ stackNodes rest) \ visited) (nodeWeight adj) ≤
        Finset.sum ((adjVals adj ∪ stackNodes ((Pass.pre, x) :: rest)) \ visited)
          (nodeWeight adj) :=
      Finset.sum_le_sum_of_subset hsub
    omega
  · simp only [rtMeasure, List.length_cons]
    have hsub : (adjVals adj ∪ stackNodes rest) \ insert x visited ⊆
        (adjVals adj ∪ stackNodes ((Pass.pre, x) :: rest)) \ visited := by
      apply Finset.sdiff_subset_sdiff _ (Finset.subset_insert _ _)
      apply Finset.union_subset_union (le_refl _)
      simp only [stackNodes, List.map_cons, List.toFinset_cons]
      exact Finset.subset_insert _ _
    have hsum : Finset.sum ((adjVals adj ∪ stackNodes rest) \ insert x visited)
          (nodeWeight adj) ≤
        Finset.sum ((adjVals adj ∪ stackNodes ((Pass.pre, x) :: rest)) \ visited)
          (nodeWeight adj) :=
      Finset.sum_le_sum_of_subset hsub
    omega
  · simp only [rtMeasure, List.length_cons, List.length_append, List.length_map]
    have hns : ∀ n ∈ ns, n ∈ adjVals adj := by
      intro n hn
      have hgen : ∀ l : List (T × List T), lookupAdj l x = some ns → n ∈ adjVals l := by
        intro l
        induction l with
        | nil => intro h; simp [lookupAdj] at h
        | cons p tl ih =>
          obtain ⟨k, vs⟩ := p
          intro h
          by_cases hk : k = x
          · simp only [lookupAdj, if_pos hk] at h
            injection h with h
            subst h
            simp only [adjVals, List.foldr_cons, Finset.mem_union]
            exact Or.inl (List.mem_toFinset.2 hn)
          · simp only [lookupAdj, if_neg hk] at h
            simp only [adjVals, List.foldr_cons, Finset.mem_union]
            exact Or.inr (ih h)
      exact hgen adj hl
    have hxmem : x ∈ (adjVals adj ∪ stackNodes ((Pass.pre, x) :: rest)) \ visited := by
      rw [Finset.mem_sdiff]
      refine ⟨Finset.mem_union_right _ ?_, hx⟩
      simp [stackNodes]
    have hsub : (adjVals adj ∪
          stackNodes (ns.map (fun n => (Pass.pre, n)) ++ (Pass.post, x) :: rest)) \
          insert x visited ⊆
        ((adjVals adj ∪ stackNodes ((Pass.pre, x) :: rest)) \ visited).erase x := by
      intro y hy
      rw [Finset.mem_sdiff, Finset.mem_insert] at hy
      push_neg at hy
      obtain ⟨hyu, hyx, hyv⟩ := hy
      rw [Finset.mem_erase, Finset.mem_sdiff]
      refine ⟨hyx, ?_, hyv⟩
      rcases Finset.mem_union.1 hyu with h | h
      · exact Finset.mem_union_left _ h
      · rw [stackNodes, List.mem_toFinset, List.map_append, List.map_cons,
          List.mem_append, List.mem_cons, List.map_map] at h
        rcases h with h | h | h
        · rcases List.mem_map.1 h with ⟨n, hn, hny⟩
          have hny' : n = y := hny
          subst hny'
          exact Finset.mem_union_left _ (hns _ hn)
        · exact absurd h hyx
        · apply Finset.mem_union_right
          rw [stackNodes, List.mem_toFinset, List.map_cons, List.mem_cons]
          exact Or.inr h
    have hsum : Finset.sum ((adjVals adj ∪
          stackNodes (ns.map (fun n => (Pass.pre, n)) ++ (Pass.post, x) :: rest)) \
          insert x visited) (nodeWeight adj) ≤
        Finset.sum (((adjVals adj ∪ stackNodes ((Pass.pre, x) :: rest)) \ visited).erase x)
          (nodeWeight adj) :=
      Finset.sum_le_sum_of_subset hsub
    have herase : Finset.sum
          (((adjVals adj ∪ stackNodes ((Pass.pre, x) :: rest)) \ visited).erase x)
          (nodeWeight adj) + nodeWeight adj x =
        Finset.sum ((adjVals adj ∪ stackNodes ((Pass.pre, x) :: rest)) \ visited)
          (nodeWeight adj) :=
      Finset.sum_erase_add
        ((adjVals adj ∪ stackNodes ((Pass.pre, x) :: rest)) \ visited) (nodeWeight adj) hxmem
    have hwt : nodeWeight adj x = ns.length + 2 := by
      simp [nodeWeight, lookupLen, hl]
    omega

/-- `AdjacencyMap::reverse_topological` (and `into_reverse_topological`):
the initial stack is the roots with the first root on top (the Rust code
collects `roots.rev()` into a `Vec` and pops from the end). -/
def reverseTopological {T : Type} [DecidableEq T] (m : AdjacencyMap T) : List T :=
  rtRun m.adjacency_map (m.roots.map (fun r => (Pass.pre, r))) ∅

/-! ### The breadth-first-edges iterator -/

def bfsRun {T : Type} [DecidableEq T] (adj : List (T × List T))
    (queue : List (Option T × T)) (visited : Finset T) : List (Option T × T) :=
  match queue with
  | [] => []
  | (p, c) :: rest =>
    match hl : lookupAdj adj c with
    | none => (p, c) :: bfsRun adj rest (insert c visited)
    | some ns =>
      if hc : c ∈ visited then (p, c) :: bfsRun adj rest visited
      else
        (p, c) ::
          bfsRun adj (rest ++ ns.reverse.map (fun n => (some c, n))) (insert c visited)
termination_by bfsMeasure adj queue visited
decreasing_by
  · simp only [bfsMeasure, List.length_cons]
    have hsub : (adjVals adj ∪ queueNodes rest) \ insert c visited ⊆
        (adjVals adj ∪ queueNodes ((p, c) :: rest)) \ visited := by
      apply Finset.sdiff_subset_sdiff _ (Finset.subset_insert _ _)
      apply Finset.union_subset_union (le_refl _)
      simp only [queueNodes, List.map_cons, List.toFinset_cons]
      exact Finset.subset_insert _ _
    have hsum : Finset.sum ((adjVals adj ∪ queueNodes rest) \ insert c visited)
          (nodeWeight adj) ≤
        Finset.sum ((adjVals adj ∪ queueNodes ((p, c) :: rest)) \ visited)
          (nodeWeight adj) :=
      Finset.sum_le_sum_of_subset hsub
    omega
  · simp only [bfsMeasure, List.length_cons]
    have hsub : (adjVals adj ∪ queueNodes rest) \ visited ⊆
        (adjVals adj ∪ queueNodes ((p, c) :: rest)) \ visited := by
      apply Finset.sdiff_subset_sdiff _ (le_refl _)
      apply Finset.union_subset_union (le_refl _)
      simp only [queueNodes, List.map_cons, List.toFinset_cons]
      exact Finset.subset_insert _ _
    have hsum : Finset.sum ((adjVals adj ∪ queueNodes rest) \ visited) (nodeWeight adj) ≤
        Finset.sum ((adjVals adj ∪ queueNodes ((p, c) :: rest)) \ visited)
          (nodeWeight adj) :=
      Finset.sum_le_sum_of_subset hsub
    omega
  · simp only [bfsMeasure, List.length_cons, List.length_append, List.length_map,
      List.length_reverse]
    have hns : ∀ n ∈ ns, n ∈ adjVals adj := by
      intro n hn
      have hgen : ∀ l : List (T × List T), lookupAdj l c = some ns → n ∈ adjVals l := by
        intro l
        induction l with
        | nil => intro h; simp [lookupAdj] at h
        | cons q tl ih =>
          obtain ⟨k, vs⟩ := q
          intro h
          by_cases hk : k = c
          · simp only [lookupAdj, if_pos hk] at h
            injection h with h
            subst h
            simp only [adjVals, List.foldr_cons, Finset.mem_union]
            exact Or.inl (List.mem_toFinset.2 hn)
          · simp only [lookupAdj, if_neg hk] at h
            simp only [adjVals, List.foldr_cons, Finset.mem_union]
            exact Or.inr (ih h)
      exact hgen adj hl
    have hcmem : c ∈ (adjVals adj ∪ queueNodes ((p, c) :: rest)) \ visited := by
      rw [Finset.mem_sdiff]
      refine ⟨Finset.mem_union_right _ ?_, hc⟩
      simp [queueNodes]
    have hsub : (adjVals adj ∪
          queueNodes (rest ++ ns.reverse.map (fun n => (some c, n)))) \ insert c visited ⊆
        ((adjVals adj ∪ queueNodes ((p, c) :: rest)) \ visited).erase c := by
      intro y hy
      rw [Finset.mem_sdiff, Finset.mem_insert] at hy
      push_neg at hy
      obtain ⟨hyu, hyc, hyv⟩ := hy
      rw [Finset.mem_erase, Finset.mem_sdiff]
      refine ⟨hyc, ?_, hyv⟩
      rcases Finset.mem_union.1 hyu with h | h
      · exact Finset.mem_union_left _ h
      · rw [queueNodes, List.mem_toFinset, List.map_append, List.mem_append,
          List.map_map] at h
        rcases h with h | h
        · apply Finset.mem_union_right
          rw [queueNodes, List.mem_toFinset, List.map_cons, List.mem_cons]
          exact Or.inr h
        · rcases List.mem_map.1 h with ⟨n, hn, hny⟩
          have hny' : n = y := hny
          subst hny'
          exact Finset.mem_union_left _ (hns _ (List.mem_reverse.1 hn))
    have hsum : Finset.sum ((adjVals adj ∪
          queueNodes (rest ++ ns.reverse.map (fun n => (some c, n)))) \ insert c visited)
          (nodeWeight adj) ≤
        Finset.sum (((adjVals adj ∪ queueNodes ((p, c) :: rest)) \ visited).erase c)
          (nodeWeight adj) :=
      Finset.sum_le_sum_of_subset hsub
    have herase : Finset.sum
          (((adjVals adj ∪ queueNodes ((p, c) :: rest)) \ visited).erase c)
          (nodeWeight adj) + nodeWeight adj c =
        Finset.sum ((adjVals adj ∪ queueNodes ((p, c) :: rest)) \ visited)
          (nodeWeight adj) :=
      Finset.sum_erase_add
        ((adjVals adj ∪ queueNodes ((p, c) :: rest)) \ visited) (nodeWeight adj) hcmem
    have hwt : nodeWeight adj c = ns.length + 2 := by
      simp [nodeWeight, lookupLen, hl]
    omega

/-- `AdjacencyMap::into_breadth_first_edges`: the Rust code collects
`roots.rev()` into a `VecDeque` and pops from the front, so the last root
is dequeued first. -/
def intoBreadthFirstEdges {T : Type} [DecidableEq T] (m : AdjacencyMap T) :
    List (Option T × T) :=
  bfsRun m.adjacency_map (m.roots.reverse.map (fun r => ((none : Option T), r))) ∅

/-! ### Order helpers and the worked example graph -/

/-- Index of the first occurrence of `x` (length when absent). -/
def firstIdx {T : Type} [DecidableEq T] : List T → T → Nat
  | [], _ => 0
  | a :: l, x => if a = x then 0 else firstIdx l x + 1

/-- `v` occurs in `l` strictly before the first occurrence of `u`. -/
def Precedes {T : Type} [DecidableEq T] (l : List T) (v u : T) : Prop :=
  v ∈ l ∧ u ∈ l ∧ firstIdx l v < firstIdx l u

instance {T : Type} [DecidableEq T] (l : List T) (v u : T) : Decidable (Precedes l v u) := by
  unfold Precedes
  infer_instance

/-- Nodes of the `Post` entries of a stack. -/
def postNodes {T : Type} : List (Pass × T) → List T
  | [] => []
  | (Pass.post, x) :: rest => x :: postNodes rest
  | (Pass.pre, _) :: rest => postNodes rest

/-- The spec's worked scenario: insert `(None,A), (A,B), (A,C), (B,D), (C,D)`
into an empty map, with `A,B,C,D` as `0,1,2,3`. -/
def exMap : AdjacencyMap Nat :=
  ((((({ adjacency_map := [], roots := [] } : AdjacencyMap Nat).insert none 0).insert
      (some 0) 1).insert (some 0) 2).insert (some 1) 3).insert (some 2) 3

/-! ### The ecmascript reference extractor: value model

From `crates/turbopack/src/ecmascript/references.rs` and its imports.  The
`JsValue` type, the well-known kinds and the free-variable kinds live in
the analyzer module (not under `src/`); their variants are modelled from
the spec (sections 3 and 6). -/

/-- Modelled from the spec (section 6): free-variable kinds; the analyzer
module defining `FreeVarKind` is not part of the given sources. -/
inductive FreeVarKind where
  | Require
  | Import
  | Dirname
  | Filename
  | Global
deriving DecidableEq, Repr

/-- Modelled from the spec (section 6): the closed set of well-known
functions; the analyzer module is not part of the given sources. -/
inductive WellKnownFunctionKind where
  | Require
  | RequireResolve
  | Import
  | FsReadMethod (name : String)
  | PathJoin
  | PathResolve
  | PathDirname
deriving DecidableEq, Repr

/-- Modelled from the spec (section 6): the closed set of well-known
objects; the analyzer module is not part of the given sources. -/
inductive WellKnownObjectKind where
  | PathModule
  | FsModule
  | ProcessModule
deriving DecidableEq, Repr

/-- Literal values (`swc` `Lit`), restricted to the shapes the embedded
code inspects: strings and numbers. -/
inductive Lit where
  | str (value : String)
  | num (value : Int)
deriving DecidableEq, Repr

/-- Modelled from the spec (section 3): the value lattice `JsValue`; the
analyzer module defining it is not part of the given sources. -/
inductive JsValue where
  | Constant (lit : Lit)
  | FreeVar (kind : FreeVarKind)
  | Variable (id : Nat)
  | Module (name : String)
  | WellKnownFunction (kind : WellKnownFunctionKind)
  | WellKnownObject (kind : WellKnownObjectKind)
  | Concat (parts : List JsValue)
  | Alternatives (alts : List JsValue)
  | Unknown

/-- Modelled from the spec (section 3): a Pattern is a literal string, a
disjunction of strings, or dynamic; `ecmascript/pattern.rs` is not part of
the given sources. -/
inductive Pattern where
  | literal (s : String)
  | disjunction (ss : List String)
  | dynamic
deriving DecidableEq, Repr

/-- Modelled from the spec (section 4.B): a value yields a literal string
when it is a string constant or a concatenation of string constants. -/
def litOfValue : JsValue → Option String
  | JsValue.Constant (Lit.str s) => some s
  | JsValue.Concat parts =>
    (parts.mapM (fun p =>
      match p with
      | JsValue.Constant (Lit.str s) => some s
      | _ => none)).map String.join
  | _ => none

/-- Modelled from the spec (section 4.B): `Pattern::from(&JsValue)`.
`Alternatives` yields a disjunction when every branch yields a literal;
otherwise the pattern is dynamic. -/
def Pattern.fromValue : JsValue → Pattern
  | JsValue.Alternatives alts =>
    match alts.mapM litOfValue with
    | some ss => Pattern.disjunction ss
    | none => Pattern.dynamic
  | v =>
    match litOfValue v with
    | some s => Pattern.literal s
    | none => Pattern.dynamic

/-- Modelled from the spec (sections 3 and 4.F): `Pattern::into_string`
yields the string of a literal pattern; a disjunction or dynamic pattern
has no single string. -/
def Pattern.intoString : Pattern → Option String
  | Pattern.literal s => some s
  | _ => none

/-- Modelled from the spec (sections 3 and 4.G): the runtime handle
returned by `is_webpack_runtime`; `WebpackRuntime::None` is "not a bundler
runtime". -/
inductive WebpackRuntime where
  | none
  | runtime (path : String)
deriving DecidableEq, Repr

/-- The asset-reference records emitted by the extractor (the reference
types of `references.rs` and its webpack module, as a closed variant). -/
inductive Reference where
  | packageJson (path : String)
  | esm (source : String) (request : String)
  | webpackRuntimeCandidate (source : String) (request : String)
  | webpackEntry (source : String) (runtime : WebpackRuntime)
  | webpackChunk (chunk_id : Lit) (runtime : WebpackRuntime)
deriving DecidableEq, Repr

/-- Modelled from the spec (section 6): stable diagnostic id
`errors::failed_to_analyse::ecmascript::DYNAMIC_IMPORT`. -/
def dynamicImportCode : String := "failed-to-analyse/ecmascript/dynamic-import"

/-- Modelled from the spec (section 6): stable diagnostic id
`errors::failed_to_analyse::ecmascript::REQUIRE`. -/
def requireCode : String := "failed-to-analyse/ecmascript/require"

/-- Modelled from the spec (section 6): stable diagnostic id
`errors::failed_to_analyse::ecmascript::FS_METHOD`. -/
def fsMethodCode : String := "failed-to-analyse/ecmascript/fs-method"

/-- `handle_call` of `module_references`: interprets one linked call
effect, returning the references it pushes and the ids of the diagnostics
it raises (the diagnostic message text is not modelled).  An
`Alternatives` callee fans out recursively with the same arguments. -/
def handle_call (source : String) : JsValue → List JsValue → List Reference × List String
  | JsValue.Alternatives alts, args =>
    alts.attach.foldr
      (fun alt acc =>
        let r := handle_call source alt.1 args
        (r.1 ++ acc.1, r.2 ++ acc.2))
      ([], [])
  | JsValue.WellKnownFunction WellKnownFunctionKind.Import, args =>
    match args with
    | [a] =>
      match (Pattern.fromValue a).intoString with
      | some s => ([Reference.esm source s], [])
      | none => ([], [dynamicImportCode])
    | _ => ([], [dynamicImportCode])
  | JsValue.WellKnownFunction WellKnownFunctionKind.Require, args =>
    match args with
    | [a] =>
      match (Pattern.fromValue a).intoString with
      | some s => ([Reference.esm source s], [])
      | none => ([], [requireCode])
    | _ => ([], [requireCode])
  | JsValue.WellKnownFunction WellKnownFunctionKind.RequireResolve, _ =>
    ([], [requireCode])
  | JsValue.WellKnownFunction (WellKnownFunctionKind.FsReadMethod _), args =>
    match args with
    | a :: _ =>
      match (Pattern.fromValue a).intoString with
      | some s => ([Reference.esm source s], [])
      | none => ([], [fsMethodCode])
    | [] => ([], [fsMethodCode])
  | _, _ => ([], [])
termination_by v _ => sizeOf v
decreasing_by
  simp only [JsValue.Alternatives.sizeOf_spec]
  have := List.sizeOf_lt_of_mem alt.2
  omega

/-- The parser collaborator's result (`ParseResult`), generic in the
parsed module payload. -/
inductive ParseResult (M : Type) where
  | ok (module : M)
  | unparseable
  | notFound

/-- The reference pushed by the `find_package_json` preamble of
`module_references`. -/
def pkgJsonRefs : Option String → List Reference
  | some p => [Reference.packageJson p]
  | none => []

/-- `module_references`: the package-json lookup result is passed in (the
resolve module is an external collaborator), and the whole `ParseResult::Ok`
analysis (graph build, visitor, effect loop) is abstracted as `analyzeOk`
since the claims about this function concern the non-`Ok` arms. -/
def module_references {M : Type} (packageJson : Option String)
    (analyzeOk : M → List Reference × List String) :
    ParseResult M → List Reference × List String
  | ParseResult.ok m =>
    let r := analyzeOk m
    (pkgJsonRefs packageJson ++ r.1, r.2)
  | ParseResult.unparseable => (pkgJsonRefs packageJson, [])
  | ParseResult.notFound => (pkgJsonRefs packageJson, [])

/-- `value_visitor`: the linker's value-replacement hook.
`replace_well_known` (the analyzer's generic rewrite, not part of the
given sources) is passed in as a function; `sourcePath` is
`source.path().await?.path` (the source file's own path). -/
def value_visitor (replace_well_known : JsValue → JsValue × Bool)
    (sourcePath : String) (input : JsValue) : JsValue × Bool :=
  let r := replace_well_known input
  let modified := r.2
  match r.1 with
  | JsValue.FreeVar FreeVarKind.Dirname => (JsValue.Constant (Lit.str sourcePath), true)
  | JsValue.FreeVar FreeVarKind.Require =>
    (JsValue.WellKnownFunction WellKnownFunctionKind.Require, true)
  | JsValue.FreeVar FreeVarKind.Import =>
    (JsValue.WellKnownFunction WellKnownFunctionKind.Import, true)
  | JsValue.Module name =>
    match name with
    | "path" => (JsValue.WellKnownObject WellKnownObjectKind.PathModule, true)
    | "fs/promises" => (JsValue.WellKnownObject WellKnownObjectKind.FsModule, true)
    | "fs" => (JsValue.WellKnownObject WellKnownObjectKind.FsModule, true)
    | other => (JsValue.Module other, modified)
  | v => (v, modified)

/-! ### The ecmascript syntactic visitor (`AssetReferencesVisitor`) -/

/-- The fragment of the `swc` expression AST inspected by
`visit_var_declarator`: literals, identifiers and calls (callee `none`
stands for a non-expression callee such as `Super`); `otherExpr` stands
for every other expression shape.  Call arguments carry their spread
flag. -/
inductive Expr where
  | lit (l : Lit)
  | ident (sym : String)
  | call (callee : Option Expr) (args : List (Bool × Expr))
  | otherExpr

/-- The binding pattern of a declarator: an identifier or anything else. -/
inductive Pat where
  | identPat (sym : String)
  | otherPat
deriving DecidableEq, Repr

/-- `VarDeclarator`: binding pattern and optional initializer. -/
structure VarDeclarator where
  name : Pat
  init : Option Expr

/-- The resolver collaborator's result (`ResolveResult`). -/
inductive ResolveResult where
  | single (asset : String)
  | many
  | unresolvable
deriving DecidableEq, Repr

/-- `resolve_as_webpack_runtime`: queries the resolver (passed in, with
request parsing and option construction absorbed into it) and probes a
single resolution with `is_webpack_runtime` (also passed in; its module is
not part of the given sources); every other resolver outcome is
`WebpackRuntime::None`. -/
def resolve_as_webpack_runtime (resolve : String → String → ResolveResult)
    (is_webpack_runtime : String → WebpackRuntime) (context request : String) :
    WebpackRuntime :=
  match resolve context request with
  | ResolveResult.single asset => is_webpack_runtime asset
  | _ => WebpackRuntime.none

/-- `ModuleExportName` of an import specifier. -/
inductive ModuleExportName where
  | identName (sym : String)
  | strName (value : String)
deriving DecidableEq, Repr

/-- `ImportSpecifier`: named (with optional imported name and type-only
flag), default, or namespace. -/
inductive ImportSpecifier where
  | named (localName : String) (imported : Option ModuleExportName) (is_type_only : Bool)
  | defaultSpecifier (localName : String)
  | namespaceSpecifier (localName : String)
deriving DecidableEq, Repr

/-- `ImportDecl`: source specifier, type-only flag, and specifiers. -/
structure ImportDecl where
  src : String
  type_only : Bool
  specifiers : List ImportSpecifier
deriving DecidableEq, Repr

/-- The mutable state of `AssetReferencesVisitor`: emitted references, the
remembered webpack runtime handle, and the static analyser's import map
(`StaticAnalyser::imports`, a `HashMap` embedded as an association
list). -/
structure VisitorState where
  references : List Reference
  webpack_runtime : Option WebpackRuntime
  imports : List (String × String × List String)
deriving Repr

/-- `HashMap::insert` on the association list: replace or append. -/
def insertImport (m : List (String × String × List String)) (k : String)
    (v : String × List String) : List (String × String × List String) :=
  match m with
  | [] => [(k, v)]
  | (k', v') :: rest => if k' = k then (k, v) :: rest else (k', v') :: insertImport rest k v

/-- One iteration of the specifier loop of `visit_import_decl`. -/
def recordSpecifier (src : String) (m : List (String × String × List String)) :
    ImportSpecifier → List (String × String × List String)
  | ImportSpecifier.named localName imported is_ty =>
    if is_ty then m
    else
      insertImport m localName
        (src,
          [match imported with
            | some (ModuleExportName.identName s) => s
            | some (ModuleExportName.strName s) => s
            | none => localName])
  | ImportSpecifier.defaultSpecifier localName => insertImport m localName (src, ["default"])
  | ImportSpecifier.namespaceSpecifier localName => insertImport m localName (src, [])

/-- `AssetReferencesVisitor::visit_import_decl`: push the `Esm` reference,
then (only when the declaration is not type-only) record the local
bindings of its specifiers in the static analyser. -/
def visit_import_decl (source : String) (st : VisitorState) (imp : ImportDecl) :
    VisitorState :=
  let st1 := { st with references := st.references ++ [Reference.esm source imp.src] }
  if imp.type_only then st1
  else
    { st1 with
      imports := imp.specifiers.foldl (fun m sp => recordSpecifier imp.src m sp) st1.imports }

/-- `AssetReferencesVisitor::visit_var_declarator`: on the exact shape
`var __webpack_require__ = require("literal")` it remembers the runtime
handle, pushes the `PotentialWebpackRuntimeAssetReference` and returns
without visiting children; on every other declarator it falls through to
the generic child visit (passed in as `visitChildren`, since the claims
concern only the matching shape). -/
def visit_var_declarator (resolve : String → String → ResolveResult)
    (is_webpack_runtime : String → WebpackRuntime) (source parent : String)
    (visitChildren : VisitorState → VarDeclarator → VisitorState)
    (st : VisitorState) (decl : VarDeclarator) : VisitorState :=
  match decl.name, decl.init with
  | Pat.identPat "__webpack_require__",
    some (Expr.call (some (Expr.ident "require")) [(false, Expr.lit (Lit.str s))]) =>
    { st with
      webpack_runtime :=
        some (resolve_as_webpack_runtime resolve is_webpack_runtime parent s),
      references := st.references ++ [Reference.webpackRuntimeCandidate source s] }
  | _, _ => visitChildren st decl


/-- The loop invariant of the reverse-topological iterator, relating the
already-emitted prefix `out`, the live stack and the visited set to the
graph.  `stackPaths` says that below any `Post` entry everything above it
is reachable from it; `guarded` says that a `Post` entry's successors are
each already emitted, pending above it, or tied to it by a cycle;
`ordered` is the reverse-topological ordering of the emitted prefix. -/
structure RTInv {T : Type} [DecidableEq T] (adj : List (T × List T)) (roots : List T)
    (out : List T) (stack : List (Pass × T)) (visited : Finset T) : Prop where
  outNodup : out.Nodup
  outVisited : ∀ x ∈ out, x ∈ visited
  visitedReach : ∀ x ∈ visited, ∃ r ∈ roots, Reaches adj r x
  stackReach : ∀ e ∈ stack, ∃ r ∈ roots, Reaches adj r (Prod.snd e)
  postVisited : ∀ x, (Pass.post, x) ∈ stack → x ∈ visited
  postNotOut : ∀ x, (Pass.post, x) ∈ stack → x ∉ out
  postNodup : (postNodes stack).Nodup
  visitedSplit : ∀ x ∈ visited, x ∈ out ∨ (Pass.post, x) ∈ stack
  stackPaths : ∀ s₁ w s₂, stack = s₁ ++ (Pass.post, w) :: s₂ →
    ∀ e ∈ s₁, Reaches adj w (Prod.snd e)
  guarded : ∀ s₁ u s₂, stack = s₁ ++ (Pass.post, u) :: s₂ → ∀ v, edgeRel adj u v →
    v ∈ out ∨ (Pass.pre, v) ∈ s₁ ∨ (Pass.post, v) ∈ s₁ ∨
      ((Pass.post, v) ∈ stack ∧ Reaches adj v u)
  ordered : ∀ u ∈ out, ∀ v, edgeRel adj u v → ¬ Reaches adj v u → Precedes out v u
  closure : ∀ u ∈ visited, ∀ v, edgeRel adj u v → v ∈ visited ∨ (Pass.pre, v) ∈ stack
  rootsCovered : ∀ r ∈ roots, r ∈ visited ∨ (Pass.pre, r) ∈ stack

/-! ### Unfolding equations of the iterators -/

theorem rtRun_nil {T : Type} [DecidableEq T] (adj : List (T × List T)) (visited : Finset T) :
    rtRun adj [] visited = [] := by
  rw [rtRun]

theorem rtRun_post {T : Type} [DecidableEq T] (adj : List (T × List T)) (x : T)
    (rest : List (Pass × T)) (visited : Finset T) :
    rtRun adj ((Pass.post, x) :: rest) visited = x :: rtRun adj rest visited := by
  rw [rtRun]

theorem rtRun_pre_visited {T : Type} [DecidableEq T] (adj : List (T × List T)) (x : T)
    (rest : List (Pass × T)) (visited : Finset T) (h : x ∈ visited) :
    rtRun adj ((Pass.pre, x) :: rest) visited = rtRun adj rest visited := by
  rw [rtRun]
  simp [h]

theorem rtRun_pre_none {T : Type} [DecidableEq T] (adj : List (T × List T)) (x : T)
    (rest : List (Pass × T)) (visited : Finset T) (h : x ∉ visited)
    (hl : lookupAdj adj x = none) :
    rtRun adj ((Pass.pre, x) :: rest) visited = x :: rtRun adj rest (insert x visited) := by
  rw [rtRun]
  rw [dif_neg h]
  split <;> simp_all

theorem rtRun_pre_some {T : Type} [DecidableEq T] (adj : List (T × List T)) (x : T)
    (rest : List (Pass × T)) (visited : Finset T) (h : x ∉ visited) (ns : List T)
    (hl : lookupAdj adj x = some ns) :
    rtRun adj ((Pass.pre, x) :: rest) visited =
      rtRun adj (ns.map (fun n => (Pass.pre, n)) ++ (Pass.post, x) :: rest)
        (insert x visited) := by
  rw [rtRun]
  rw [dif_neg h]
  split <;> simp_all

theorem bfsRun_nil {T : Type} [DecidableEq T] (adj : List (T × List T)) (visited : Finset T) :
    bfsRun adj [] visited = [] := by
  rw [bfsRun]

theorem bfsRun_leaf {T : Type} [DecidableEq T] (adj : List (T × List T)) (p : Option T)
    (c : T) (rest : List (Option T × T)) (visited : Finset T)
    (hl : lookupAdj adj c = none) :
    bfsRun adj ((p, c) :: rest) visited = (p, c) :: bfsRun adj rest (insert c visited) := by
  rw [bfsRun]
  split <;> simp_all

theorem bfsRun_dup {T : Type} [DecidableEq T] (adj : List (T × List T)) (p : Option T)
    (c : T) (rest : List (Option T × T)) (visited : Finset T) (ns : List T)
    (hl : lookupAdj adj c = some ns) (hc : c ∈ visited) :
    bfsRun adj ((p, c) :: rest) visited = (p, c) :: bfsRun adj rest visited := by
  rw [bfsRun]
  split <;> simp_all

theorem bfsRun_expand {T : Type} [DecidableEq T] (adj : List (T × List T)) (p : Option T)
    (c : T) (rest : List (Option T × T)) (visited : Finset T) (ns : List T)
    (hl : lookupAdj adj c = some ns) (hc : c ∉ visited) :
    bfsRun adj ((p, c) :: rest) visited =
      (p, c) ::
        bfsRun adj (rest ++ ns.reverse.map (fun n => (some c, n))) (insert c visited) := by
  rw [bfsRun]
  split <;> simp_all

/-! ### Concrete evaluation of the worked scenario -/

theorem exMap_def :
    exMap = { adjacency_map := [(0, [1, 2]), (1, [3]), (2, [3])], roots := [0] } := by
  simp [exMap, AdjacencyMap.insert, addToKey]

theorem rt_exMap_eval : reverseTopological exMap = [3, 1, 2, 0] := by
  rw [exMap_def]
  simp [reverseTopological, lookupAdj, rtRun_nil, rtRun_post, rtRun_pre_visited,
    rtRun_pre_none, rtRun_pre_some]

theorem bfs_exMap_eval : intoBreadthFirstEdges exMap =
    [(none, 0), (some 0, 2), (some 0, 1), (some 2, 3), (some 1, 3)] := by
  rw [exMap_def]
  simp [intoBreadthFirstEdges, lookupAdj, bfsRun_nil, bfsRun_leaf, bfsRun_dup, bfsRun_expand]

/-! ### Claims about the reference extractor -/

theorem module_references_non_ok (M : Type) (packageJson : Option String)
    (analyzeOk : M → List Reference × List String) (parsed : ParseResult M)
    (h : parsed = ParseResult.unparseable ∨ parsed = ParseResult.notFound) :
    module_references packageJson analyzeOk parsed = (pkgJsonRefs packageJson, []) := by
  rcases h with h | h <;> subst h <;> rfl

theorem module_references_non_ok_witness :
    ((ParseResult.unparseable : ParseResult Unit) = ParseResult.unparseable ∨
      (ParseResult.unparseable : ParseResult Unit) = ParseResult.notFound) ∧
    module_references (some "p") (fun _ : Unit => ([Reference.esm "s" "x"], ["d"]))
      ParseResult.unparseable = (pkgJsonRefs (some "p"), []) :=
  ⟨Or.inl rfl,
    module_references_non_ok Unit (some "p") (fun _ : Unit => ([Reference.esm "s" "x"], ["d"]))
      ParseResult.unparseable (Or.inl rfl)⟩

theorem module_references_unparseable_counterexample :
    module_references (some "a/package.json") (fun _ : Unit => ([], []))
        ParseResult.unparseable =
      ([Reference.packageJson "a/package.json"], []) ∧
    (module_references (some "a/package.json") (fun _ : Unit => ([], []))
        ParseResult.unparseable).1 ≠ [] := by
  refine ⟨rfl, ?_⟩
  intro h
  simp [module_references, pkgJsonRefs] at h

theorem value_visitor_dirname_full_path :
    value_visitor (fun v => (v, false)) "src/index.js"
        (JsValue.FreeVar FreeVarKind.Dirname) =
      (JsValue.Constant (Lit.str "src/index.js"), true) ∧
    value_visitor (fun v => (v, false)) "src/index.js"
        (JsValue.FreeVar FreeVarKind.Dirname) ≠
      (JsValue.Constant (Lit.str "src"), true) := by
  refine ⟨rfl, ?_⟩
  intro h
  simp [value_visitor] at h

theorem visit_var_declarator_webpack (resolve : String → String → ResolveResult)
    (is_webpack_runtime : String → WebpackRuntime) (source parent : String)
    (visitChildren : VisitorState → VarDeclarator → VisitorState) (st : VisitorState)
    (s : String) :
    visit_var_declarator resolve is_webpack_runtime source parent visitChildren st
        { name := Pat.identPat "__webpack_require__",
          init := some (Expr.call (some (Expr.ident "require"))
            [(false, Expr.lit (Lit.str s))]) } =
      { st with
        webpack_runtime :=
          some (resolve_as_webpack_runtime resolve is_webpack_runtime parent s),
        references := st.references ++ [Reference.webpackRuntimeCandidate source s] } ∧
    ((∀ a, resolve parent s ≠ ResolveResult.single a) →
      resolve_as_webpack_runtime resolve is_webpack_runtime parent s =
        WebpackRuntime.none) := by
  constructor
  · rfl
  · intro h
    cases hr : resolve parent s with
    | single a => exact absurd hr (h a)
    | many => simp [resolve_as_webpack_runtime, hr]
    | unresolvable => simp [resolve_as_webpack_runtime, hr]

theorem visit_var_declarator_webpack_witness :
    resolve_as_webpack_runtime (fun _ _ => ResolveResult.unresolvable)
      (fun _ => WebpackRuntime.none) "dir" "./rt.js" = WebpackRuntime.none :=
  (visit_var_declarator_webpack (fun _ _ => ResolveResult.unresolvable)
    (fun _ => WebpackRuntime.none) "src" "dir" (fun st _ => st)
    ⟨[], Option.none, []⟩ "./rt.js").2 (fun _ h => by simp at h)

theorem visit_import_decl_esm (source : String) (st : VisitorState) (imp : ImportDecl) :
    (visit_import_decl source st imp).references =
      st.references ++ [Reference.esm source imp.src] ∧
    (imp.type_only = true → (visit_import_decl source st imp).imports = st.imports) := by
  unfold visit_import_decl
  by_cases h : imp.type_only <;> simp [h]

theorem visit_import_decl_esm_witness :
    (visit_import_decl "src" ⟨[], Option.none, []⟩
        { src := "m", type_only := true,
          specifiers := [ImportSpecifier.defaultSpecifier "X"] }).imports = [] :=
  (visit_import_decl_esm "src" ⟨[], Option.none, []⟩
    { src := "m", type_only := true,
      specifiers := [ImportSpecifier.defaultSpecifier "X"] }).2 rfl

theorem handle_call_require_import (source : String) (k : WellKnownFunctionKind)
    (hk : k = WellKnownFunctionKind.Require ∨ k = WellKnownFunctionKind.Import)
    (args : List JsValue) :
    (∀ a s, args = [a] → Pattern.fromValue a = Pattern.literal s →
      handle_call source (JsValue.WellKnownFunction k) args =
        ([Reference.esm source s], [])) ∧
    ((¬ ∃ a s, args = [a] ∧ Pattern.fromValue a = Pattern.literal s) →
      handle_call source (JsValue.WellKnownFunction k) args =
        ([], [if k = WellKnownFunctionKind.Import then dynamicImportCode
              else requireCode])) ∧
    (∀ a ss, args = [a] → Pattern.fromValue a = Pattern.disjunction ss →
      handle_call source (JsValue.WellKnownFunction k) args =
        ([], [if k = WellKnownFunctionKind.Import then dynamicImportCode
              else requireCode])) := by
  refine ⟨?_, ?_, ?_⟩
  · intro a s ha hs
    subst ha
    rcases hk with hk | hk <;> subst hk <;>
      simp [handle_call, hs, Pattern.intoString]
  · intro h
    match args with
    | [] =>
      rcases hk with hk | hk <;> subst hk <;> simp [handle_call]
    | [a] =>
      have hne : ∀ s, Pattern.fromValue a ≠ Pattern.literal s := by
        intro s hs
        exact h ⟨a, s, rfl, hs⟩
      rcases hk with hk | hk <;> subst hk <;>
        (cases hp : Pattern.fromValue a with
        | literal s => exact absurd hp (hne s)
        | disjunction ss => simp [handle_call, hp, Pattern.intoString]
        | dynamic => simp [handle_call, hp, Pattern.intoString])
    | a :: b :: rest =>
      rcases hk with hk | hk <;> subst hk <;> simp [handle_call]
  · intro a ss ha hs
    subst ha
    rcases hk with hk | hk <;> subst hk <;>
      simp [handle_call, hs, Pattern.intoString]

theorem handle_call_require_import_witness :
    (WellKnownFunctionKind.Require = WellKnownFunctionKind.Require ∨
      WellKnownFunctionKind.Require = WellKnownFunctionKind.Import) ∧
    Pattern.fromValue (JsValue.Constant (Lit.str "./c")) = Pattern.literal "./c" ∧
    handle_call "src" (JsValue.WellKnownFunction WellKnownFunctionKind.Require)
      [JsValue.Constant (Lit.str "./c")] = ([Reference.esm "src" "./c"], []) :=
  ⟨Or.inl rfl, rfl,
    (handle_call_require_import "src" WellKnownFunctionKind.Require (Or.inl rfl)
      [JsValue.Constant (Lit.str "./c")]).1 (JsValue.Constant (Lit.str "./c")) "./c" rfl rfl⟩

theorem handle_call_alternatives_counterexample :
    handle_call "src" (JsValue.WellKnownFunction WellKnownFunctionKind.Require)
        [JsValue.Alternatives
          [JsValue.Constant (Lit.str "./d"), JsValue.Constant (Lit.str "./e")]] =
      ([], [requireCode]) ∧
    Pattern.fromValue (JsValue.Alternatives
        [JsValue.Constant (Lit.str "./d"), JsValue.Constant (Lit.str "./e")]) =
      Pattern.disjunction ["./d", "./e"] ∧
    handle_call "src" (JsValue.WellKnownFunction WellKnownFunctionKind.Require)
        [JsValue.Alternatives
          [JsValue.Constant (Lit.str "./d"), JsValue.Constant (Lit.str "./e")]] ≠
      ([Reference.esm "src" "./d", Reference.esm "src" "./e"], []) := by
  have heval : handle_call "src" (JsValue.WellKnownFunction WellKnownFunctionKind.Require)
      [JsValue.Alternatives
        [JsValue.Constant (Lit.str "./d"), JsValue.Constant (Lit.str "./e")]] =
      ([], [requireCode]) := by
    simp only [handle_call]
    rfl
  refine ⟨heval, rfl, ?_⟩
  rw [heval]
  simp

/-! ### Concrete claims about the worked scenario -/

theorem reverse_topological_example : reverseTopological exMap = [3, 1, 2, 0] :=
  rt_exMap_eval

theorem rt_sibling_counterexample :
    reverseTopological exMap = [3, 1, 2, 0] ∧
    ¬ Precedes (reverseTopological exMap) 2 1 := by
  refine ⟨rt_exMap_eval, ?_⟩
  rw [rt_exMap_eval]
  decide

theorem rt_sibling_insertion_order :
    (∀ (T : Type) [DecidableEq T] (adj : List (T × List T)) (u : T) (cs : List T)
      (s : List (Pass × T)) (visited : Finset T), u ∉ visited → lookupAdj adj u = some cs →
      rtRun adj ((Pass.pre, u) :: s) visited =
        rtRun adj (cs.map (fun c => (Pass.pre, c)) ++ (Pass.post, u) :: s)
          (insert u visited)) ∧
    Precedes (reverseTopological exMap) 1 2 := by
  constructor
  · intro T instT adj u cs s visited h hl
    exact rtRun_pre_some adj u s visited h cs hl
  · rw [rt_exMap_eval]
    decide

theorem rt_sibling_insertion_order_witness :
    ((0 : Nat) ∉ (∅ : Finset Nat)) ∧
    lookupAdj [((0 : Nat), [1, 2])] 0 = some [1, 2] ∧
    rtRun [((0 : Nat), [1, 2])] [(Pass.pre, 0)] ∅ =
      rtRun [((0 : Nat), [1, 2])]
        ([1, 2].map (fun c => (Pass.pre, c)) ++ (Pass.post, 0) :: []) (insert 0 ∅) :=
  ⟨by decide, rfl,
    rt_sibling_insertion_order.1 Nat [((0 : Nat), [1, 2])] 0 [1, 2] [] ∅
      (by decide) rfl⟩

theorem bfs_example_counterexample :
    intoBreadthFirstEdges exMap ≠
      [(none, 0), (some 0, 1), (some 0, 2), (some 1, 3), (some 2, 3)] := by
  rw [bfs_exMap_eval]
  decide

theorem bfs_example_order :
    intoBreadthFirstEdges exMap =
      [(none, 0), (some 0, 2), (some 0, 1), (some 2, 3), (some 1, 3)] ∧
    ((intoBreadthFirstEdges exMap).map Prod.snd).count 3 = 2 := by
  refine ⟨bfs_exMap_eval, ?_⟩
  rw [bfs_exMap_eval]
  decide

theorem bfs_target_once_counterexample :
    reachableFrom exMap 3 ∧
    ((intoBreadthFirstEdges exMap).map Prod.snd).count 3 = 2 ∧
    ((intoBreadthFirstEdges exMap).map Prod.snd).count 3 ≠ 1 := by
  refine ⟨?_, ?_, ?_⟩
  · rw [exMap_def]
    refine ⟨0, by simp, ?_⟩
    have e01 : edgeRel [(0, [1, 2]), (1, [3]), (2, [3])] 0 1 := by decide
    have e13 : edgeRel [(0, [1, 2]), (1, [3]), (2, [3])] 1 3 := by decide
    exact Relation.ReflTransGen.head e01 (Relation.ReflTransGen.single e13)
  · rw [bfs_exMap_eval]
    decide
  · rw [bfs_exMap_eval]
    decide

/-! ### BFS completeness: every reachable node is emitted as a target -/

theorem bfsMeasure_tail_insert_lt {T : Type} [DecidableEq T] (adj : List (T × List T))
    (p : Option T) (c : T) (rest : List (Option T × T)) (visited : Finset T) :
    bfsMeasure adj rest (insert c visited) < bfsMeasure adj ((p, c) :: rest) visited := by
  simp only [bfsMeasure, List.length_cons]
  have hsub : (adjVals adj ∪ queueNodes rest) \ insert c visited ⊆
      (adjVals adj ∪ queueNodes ((p, c) :: rest)) \ visited := by
    apply Finset.sdiff_subset_sdiff _ (Finset.subset_insert _ _)
    apply Finset.union_subset_union (le_refl _)
    simp only [queueNodes, List.map_cons, List.toFinset_cons]
    exact Finset.subset_insert _ _
  have hsum : Finset.sum ((adjVals adj ∪ queueNodes rest) \ insert c visited)
        (nodeWeight adj) ≤
      Finset.sum ((adjVals adj ∪ queueNodes ((p, c) :: rest)) \ visited) (nodeWeight adj) :=
    Finset.sum_le_sum_of_subset hsub
  omega

theorem bfsMeasure_tail_lt {T : Type} [DecidableEq T] (adj : List (T × List T))
    (p : Option T) (c : T) (rest : List (Option T × T)) (visited : Finset T) :
    bfsMeasure adj rest visited < bfsMeasure adj ((p, c) :: rest) visited := by
  simp only [bfsMeasure, List.length_cons]
  have hsub : (adjVals adj ∪ queueNodes rest) \ visited ⊆
      (adjVals adj ∪ queueNodes ((p, c) :: rest)) \ visited := by
    apply Finset.sdiff_subset_sdiff _ (le_refl _)
    apply Finset.union_subset_union (le_refl _)
    simp only [queueNodes, List.map_cons, List.toFinset_cons]
    exact Finset.subset_insert _ _
  have hsum : Finset.sum ((adjVals adj ∪ queueNodes rest) \ visited) (nodeWeight adj) ≤
      Finset.sum ((adjVals adj ∪ queueNodes ((p, c) :: rest)) \ visited) (nodeWeight adj) :=
    Finset.sum_le_sum_of_subset hsub
  omega

theorem mem_adjVals_of_lookup {T : Type} [DecidableEq T] {adj : List (T × List T)}
    {x : T} {ns : List T} (hl : lookupAdj adj x = some ns) {n : T} (hn : n ∈ ns) :
    n ∈ adjVals adj := by
  induction adj with
  | nil => simp [lookupAdj] at hl
  | cons q tl ih =>
    obtain ⟨k, vs⟩ := q
    by_cases hk : k = x
    · simp only [lookupAdj, if_pos hk] at hl
      injection hl with hl
      subst hl
      simp only [adjVals, List.foldr_cons, Finset.mem_union]
      exact Or.inl (List.mem_toFinset.2 hn)
    · simp only [lookupAdj, if_neg hk] at hl
      simp only [adjVals, List.foldr_cons, Finset.mem_union]
      exact Or.inr (ih hl)

theorem bfsMeasure_expand_lt {T : Type} [DecidableEq T] (adj : List (T × List T))
    (p : Option T) (c : T) (rest : List (Option T × T)) (visited : Finset T)
    (ns : List T) (hl : lookupAdj adj c = some ns) (hc : c ∉ visited) :
    bfsMeasure adj (rest ++ ns.reverse.map (fun n => (some c, n))) (insert c visited) <
      bfsMeasure adj ((p, c) :: rest) visited := by
  simp only [bfsMeasure, List.length_cons, List.length_append, List.length_map,
    List.length_reverse]
  have hcmem : c ∈ (adjVals adj ∪ queueNodes ((p, c) :: rest)) \ visited := by
    rw [Finset.mem_sdiff]
    refine ⟨Finset.mem_union_right _ ?_, hc⟩
    simp [queueNodes]
  have hsub : (adjVals adj ∪
        queueNodes (rest ++ ns.reverse.map (fun n => (some c, n)))) \ insert c visited ⊆
      ((adjVals adj ∪ queueNodes ((p, c) :: rest)) \ visited).erase c := by
    intro y hy
    rw [Finset.mem_sdiff, Finset.mem_insert] at hy
    push_neg at hy
    obtain ⟨hyu, hyc, hyv⟩ := hy
    rw [Finset.mem_erase, Finset.mem_sdiff]
    refine ⟨hyc, ?_, hyv⟩
    rcases Finset.mem_union.1 hyu with h | h
    · exact Finset.mem_union_left _ h
    · rw [queueNodes, List.mem_toFinset, List.map_append, List.mem_append,
        List.map_map] at h
      rcases h with h | h
      · apply Finset.mem_union_right
        rw [queueNodes, List.mem_toFinset, List.map_cons, List.mem_cons]
        exact Or.inr h
      · rcases List.mem_map.1 h with ⟨n, hn, hny⟩
        have hny' : n = y := hny
        subst hny'
        exact Finset.mem_union_left _ (mem_adjVals_of_lookup hl (List.mem_reverse.1 hn))
  have hsum : Finset.sum ((adjVals adj ∪
        queueNodes (rest ++ ns.reverse.map (fun n => (some c, n)))) \ insert c visited)
        (nodeWeight adj) ≤
      Finset.sum (((adjVals adj ∪ queueNodes ((p, c) :: rest)) \ visited).erase c)
        (nodeWeight adj) :=
    Finset.sum_le_sum_of_subset hsub
  have herase : Finset.sum
        (((adjVals adj ∪ queueNodes ((p, c) :: rest)) \ visited).erase c)
        (nodeWeight adj) + nodeWeight adj c =
      Finset.sum ((adjVals adj ∪ queueNodes ((p, c) :: rest)) \ visited)
        (nodeWeight adj) :=
    Finset.sum_erase_add
      ((adjVals adj ∪ queueNodes ((p, c) :: rest)) \ visited) (nodeWeight adj) hcmem
  have hwt : nodeWeight adj c = ns.length + 2 := by
    simp [nodeWeight, lookupLen, hl]
  omega

theorem bfs_reach_aux {T : Type} [DecidableEq T] (adj : List (T × List T))
    (queue : List (Option T × T)) (visited : Finset T) (out : List (Option T × T))
    (hclo : ∀ u ∈ visited, ∀ v, edgeRel adj u v → v ∈ visited ∨ ∃ p, (p, v) ∈ queue)
    (hemit : ∀ z ∈ visited, z ∈ out.map Prod.snd)
    (x y : T) (hcov : x ∈ visited ∨ ∃ p, (p, x) ∈ queue) (hreach : Reaches adj x y) :
    y ∈ (out ++ bfsRun adj queue visited).map Prod.snd := by
  match queue with
  | [] =>
    rw [bfsRun_nil]
    have hx : x ∈ visited := by
      rcases hcov with h | ⟨p, hp⟩
      · exact h
      · exact absurd hp (List.not_mem_nil _)
    have hy : y ∈ visited := by
      induction hreach with
      | refl => exact hx
      | tail _ he ih =>
        rcases hclo _ ih _ he with h | ⟨p, hp⟩
        · exact h
        · exact absurd hp (List.not_mem_nil _)
    simpa using hemit y hy
  | (p, c) :: rest =>
    match hl : lookupAdj adj c with
    | none =>
      rw [bfsRun_leaf adj p c rest visited hl]
      have hassoc : out ++ (p, c) :: bfsRun adj rest (insert c visited) =
          (out ++ [(p, c)]) ++ bfsRun adj rest (insert c visited) := by
        simp
      rw [hassoc]
      refine bfs_reach_aux adj rest (insert c visited) (out ++ [(p, c)]) ?_ ?_ x y ?_ hreach
      · intro u hu v he
        rcases Finset.mem_insert.1 hu with hu | hu
        · subst hu
          obtain ⟨vs, hvs, _⟩ := he
          rw [hl] at hvs
          cases hvs
        · rcases hclo u hu v he with h | ⟨p', hp'⟩
          · exact Or.inl (Finset.mem_insert_of_mem h)
          · rcases List.mem_cons.1 hp' with h | h
            · injection h with h1 h2
              subst h2
              exact Or.inl (Finset.mem_insert_self _ _)
            · exact Or.inr ⟨p', h⟩
      · intro z hz
        rcases Finset.mem_insert.1 hz with hz | hz
        · subst hz
          simp
        · rw [List.map_append, List.mem_append]
          exact Or.inl (hemit z hz)
      · rcases hcov with h | ⟨p', hp'⟩
        · exact Or.inl (Finset.mem_insert_of_mem h)
        · rcases List.mem_cons.1 hp' with h | h
          · injection h with h1 h2
            subst h2
            exact Or.inl (Finset.mem_insert_self _ _)
          · exact Or.inr ⟨p', h⟩
    | some ns =>
      by_cases hc : c ∈ visited
      · rw [bfsRun_dup adj p c rest visited ns hl hc]
        have hassoc : out ++ (p, c) :: bfsRun adj rest visited =
            (out ++ [(p, c)]) ++ bfsRun adj rest visited := by
          simp
        rw [hassoc]
        refine bfs_reach_aux adj rest visited (out ++ [(p, c)]) ?_ ?_ x y ?_ hreach
        · intro u hu v he
          rcases hclo u hu v he with h | ⟨p', hp'⟩
          · exact Or.inl h
          · rcases List.mem_cons.1 hp' with h | h
            · injection h with h1 h2
              subst h2
              exact Or.inl hc
            · exact Or.inr ⟨p', h⟩
        · intro z hz
          rw [List.map_append, List.mem_append]
          exact Or.inl (hemit z hz)
        · rcases hcov with h | ⟨p', hp'⟩
          · exact Or.inl h
          · rcases List.mem_cons.1 hp' with h | h
            · injection h with h1 h2
              subst h2
              exact Or.inl hc
            · exact Or.inr ⟨p', h⟩
      · rw [bfsRun_expand adj p c rest visited ns hl hc]
        have hassoc : out ++ (p, c) ::
            bfsRun adj (rest ++ ns.reverse.map (fun n => (some c, n))) (insert c visited) =
            (out ++ [(p, c)]) ++
              bfsRun adj (rest ++ ns.reverse.map (fun n => (some c, n)))
                (insert c visited) := by
          simp
        rw [hassoc]
        refine bfs_reach_aux adj (rest ++ ns.reverse.map (fun n => (some c, n)))
          (insert c visited) (out ++ [(p, c)]) ?_ ?_ x y ?_ hreach
        · intro u hu v he
          rcases Finset.mem_insert.1 hu with hu | hu
          · subst hu
            obtain ⟨vs, hvs, hv⟩ := he
            rw [hl] at hvs
            injection hvs with hvs
            subst hvs
            refine Or.inr ⟨some u, List.mem_append_right _ ?_⟩
            exact List.mem_map.2 ⟨v, List.mem_reverse.2 hv, rfl⟩
          · rcases hclo u hu v he with h | ⟨p', hp'⟩
            · exact Or.inl (Finset.mem_insert_of_mem h)
            · rcases List.mem_cons.1 hp' with h | h
              · injection h with h1 h2
                subst h2
                exact Or.inl (Finset.mem_insert_self _ _)
              · exact Or.inr ⟨p', List.mem_append_left _ h⟩
        · intro z hz
          rcases Finset.mem_insert.1 hz with hz | hz
          · subst hz
            simp
          · rw [List.map_append, List.mem_append]
            exact Or.inl (hemit z hz)
        · rcases hcov with h | ⟨p', hp'⟩
          · exact Or.inl (Finset.mem_insert_of_mem h)
          · rcases List.mem_cons.1 hp' with h | h
            · injection h with h1 h2
              subst h2
              exact Or.inl (Finset.mem_insert_self _ _)
            · exact Or.inr ⟨p', List.mem_append_left _ h⟩
termination_by bfsMeasure adj queue visited
decreasing_by
  · exact bfsMeasure_tail_insert_lt adj p c rest visited
  · exact bfsMeasure_tail_lt adj p c rest visited
  · exact bfsMeasure_expand_lt adj p c rest visited ns hl hc

theorem bfs_reachable_target {T : Type} [DecidableEq T] (m : AdjacencyMap T) (x : T)
    (hx : reachableFrom m x) :
    x ∈ (intoBreadthFirstEdges m).map Prod.snd := by
  obtain ⟨r, hr, hreach⟩ := hx
  have h := bfs_reach_aux m.adjacency_map
    (m.roots.reverse.map (fun r => ((none : Option T), r))) ∅ []
    (fun u hu => absurd hu (Finset.not_mem_empty u))
    (fun z hz => absurd hz (Finset.not_mem_empty z))
    r x
    (Or.inr ⟨none, List.mem_map.2 ⟨r, List.mem_reverse.2 hr, rfl⟩⟩)
    hreach
  simpa [intoBreadthFirstEdges] using h

theorem bfs_reachable_target_witness :
    reachableFrom exMap 3 ∧ 3 ∈ (intoBreadthFirstEdges exMap).map Prod.snd := by
  have hreach : reachableFrom exMap 3 := by
    rw [exMap_def]
    refine ⟨0, by simp, ?_⟩
    have e01 : edgeRel [(0, [1, 2]), (1, [3]), (2, [3])] 0 1 := by decide
    have e13 : edgeRel [(0, [1, 2]), (1, [3]), (2, [3])] 1 3 := by decide
    exact Relation.ReflTransGen.head e01 (Relation.ReflTransGen.single e13)
  exact ⟨hreach, bfs_reachable_target exMap 3 hreach⟩

/-! ### Helper lemmas for the reverse-topological proof -/

theorem firstIdx_lt_length {T : Type} [DecidableEq T] {l : List T} {x : T} (h : x ∈ l) :
    firstIdx l x < l.length := by
  induction l with
  | nil => cases h
  | cons a l ih =>
    by_cases hax : a = x
    · simp [firstIdx, hax]
    · rcases List.mem_cons.1 h with h' | h'
      · exact absurd h'.symm hax
      · simp only [firstIdx, if_neg hax, List.length_cons]
        exact Nat.succ_lt_succ (ih h')

theorem firstIdx_append_of_mem {T : Type} [DecidableEq T] {l : List T} {x : T}
    (h : x ∈ l) (t : List T) : firstIdx (l ++ t) x = firstIdx l x := by
  induction l with
  | nil => cases h
  | cons a l ih =>
    by_cases hax : a = x
    · simp [firstIdx, hax]
    · rcases List.mem_cons.1 h with h' | h'
      · exact absurd h'.symm hax
      · simp [firstIdx, hax, ih h']

theorem firstIdx_append_of_not_mem {T : Type} [DecidableEq T] {l : List T} {x : T}
    (h : x ∉ l) (t : List T) : firstIdx (l ++ t) x = l.length + firstIdx t x := by
  induction l with
  | nil => simp [firstIdx]
  | cons a l ih =>
    have hax : a ≠ x := fun he => h (he ▸ List.mem_cons_self a l)
    have hx : x ∉ l := fun hm => h (List.mem_cons_of_mem a hm)
    simp only [List.cons_append, firstIdx, if_neg hax, List.length_cons, List.append_eq,
      ih hx]
    omega

theorem Precedes.append {T : Type} [DecidableEq T] {l : List T} {v u : T}
    (h : Precedes l v u) (t : List T) : Precedes (l ++ t) v u := by
  obtain ⟨hv, hu, hlt⟩ := h
  exact ⟨List.mem_append_left _ hv, List.mem_append_left _ hu,
    by rw [firstIdx_append_of_mem hv, firstIdx_append_of_mem hu]; exact hlt⟩

theorem Precedes.append_singleton {T : Type} [DecidableEq T] {l : List T} {v u : T}
    (hv : v ∈ l) (hu : u ∉ l) : Precedes (l ++ [u]) v u := by
  refine ⟨List.mem_append_left _ hv, List.mem_append_right _ (List.mem_singleton.2 rfl), ?_⟩
  rw [firstIdx_append_of_mem hv, firstIdx_append_of_not_mem hu]
  have := firstIdx_lt_length hv
  omega

theorem mem_postNodes {T : Type} {stack : List (Pass × T)} {x : T} :
    x ∈ postNodes stack ↔ (Pass.post, x) ∈ stack := by
  induction stack with
  | nil => simp [postNodes]
  | cons e rest ih =>
    obtain ⟨p, y⟩ := e
    cases p
    · rw [show postNodes ((Pass.pre, y) :: rest) = postNodes rest from rfl, ih]
      constructor
      · exact fun h => List.mem_cons_of_mem _ h
      · intro h
        rcases List.mem_cons.1 h with h | h
        · cases h
        · exact h
    · rw [show postNodes ((Pass.post, y) :: rest) = y :: postNodes rest from rfl]
      constructor
      · intro h
        rcases List.mem_cons.1 h with h | h
        · subst h
          exact List.mem_cons_self _ _
        · exact List.mem_cons_of_mem _ (ih.1 h)
      · intro h
        rcases List.mem_cons.1 h with h | h
        · injection h with _ h2
          subst h2
          exact List.mem_cons_self _ _
        · exact List.mem_cons_of_mem _ (ih.2 h)

theorem postNodes_map_pre {T : Type} (ns : List T) :
    postNodes (ns.map (fun n => (Pass.pre, n))) = [] := by
  induction ns with
  | nil => rfl
  | cons a l ih => simpa [postNodes] using ih

theorem postNodes_cons_pre {T : Type} (x : T) (rest : List (Pass × T)) :
    postNodes ((Pass.pre, x) :: rest) = postNodes rest := rfl

theorem postNodes_cons_post {T : Type} (x : T) (rest : List (Pass × T)) :
    postNodes ((Pass.post, x) :: rest) = x :: postNodes rest := rfl

theorem postNodes_append {T : Type} (s t : List (Pass × T)) :
    postNodes (s ++ t) = postNodes s ++ postNodes t := by
  induction s with
  | nil => rfl
  | cons e rest ih =>
    obtain ⟨p, y⟩ := e
    cases p <;> simp [postNodes, ih]

theorem split_post {T : Type} (pres : List (Pass × T))
    (hpres : ∀ e ∈ pres, Prod.fst e = Pass.pre) (x : T)
    (rest s₁ s₂ : List (Pass × T)) (w : T)
    (heq : pres ++ (Pass.post, x) :: rest = s₁ ++ (Pass.post, w) :: s₂) :
    (s₁ = pres ∧ w = x ∧ s₂ = rest) ∨
    (∃ r₁, s₁ = pres ++ (Pass.post, x) :: r₁ ∧ rest = r₁ ++ (Pass.post, w) :: s₂) := by
  induction pres generalizing s₁ with
  | nil =>
    simp only [List.nil_append] at heq
    match s₁, heq with
    | [], heq =>
      injection heq with h1 h2
      injection h1 with _ hw
      exact Or.inl ⟨rfl, hw.symm, h2.symm⟩
    | e :: s₁', heq =>
      injection heq with h1 h2
      subst h1
      exact Or.inr ⟨s₁', by simp, h2⟩
  | cons q pres' ih =>
    match s₁, heq with
    | [], heq =>
      injection heq with h1 _
      have := hpres q (List.mem_cons_self _ _)
      rw [h1] at this
      simp at this
    | e :: s₁', heq =>
      injection heq with h1 h2
      subst h1
      have hpres' : ∀ e ∈ pres', Prod.fst e = Pass.pre := fun e he =>
        hpres e (List.mem_cons_of_mem _ he)
      rcases ih hpres' s₁' h2 with ⟨ha, hb, hc⟩ | ⟨r₁, ha, hb⟩
      · subst ha
        exact Or.inl ⟨rfl, hb, hc⟩
      · subst ha
        exact Or.inr ⟨r₁, rfl, hb⟩

theorem map_pre_all_pre {T : Type} (ns : List T) :
    ∀ e ∈ ns.map (fun n => (Pass.pre, n)), Prod.fst e = Pass.pre := by
  intro e he
  rcases List.mem_map.1 he with ⟨n, _, hn⟩
  rw [← hn]

theorem rtMeasure_tail_lt {T : Type} [DecidableEq T] (adj : List (T × List T)) (q : Pass)
    (x : T) (rest : List (Pass × T)) (visited : Finset T) :
    rtMeasure adj rest visited < rtMeasure adj ((q, x) :: rest) visited := by
  simp only [rtMeasure, List.length_cons]
  have hsub : (adjVals adj ∪ stackNodes rest) \ visited ⊆
      (adjVals adj ∪ stackNodes ((q, x) :: rest)) \ visited := by
    apply Finset.sdiff_subset_sdiff _ (le_refl _)
    apply Finset.union_subset_union (le_refl _)
    simp only [stackNodes, List.map_cons, List.toFinset_cons]
    exact Finset.subset_insert _ _
  have hsum : Finset.sum ((adjVals adj ∪ stackNodes rest) \ visited) (nodeWeight adj) ≤
      Finset.sum ((adjVals adj ∪ stackNodes ((q, x) :: rest)) \ visited) (nodeWeight adj) :=
    Finset.sum_le_sum_of_subset hsub
  omega

theorem rtMeasure_tail_insert_lt {T : Type} [DecidableEq T] (adj : List (T × List T))
    (x : T) (rest : List (Pass × T)) (visited : Finset T) :
    rtMeasure adj rest (insert x visited) < rtMeasure adj ((Pass.pre, x) :: rest) visited := by
  simp only [rtMeasure, List.length_cons]
  have hsub : (adjVals adj ∪ stackNodes rest) \ insert x visited ⊆
      (adjVals adj ∪ stackNodes ((Pass.pre, x) :: rest)) \ visited := by
    apply Finset.sdiff_subset_sdiff _ (Finset.subset_insert _ _)
    apply Finset.union_subset_union (le_refl _)
    simp only [stackNodes, List.map_cons, List.toFinset_cons]
    exact Finset.subset_insert _ _
  have hsum : Finset.sum ((adjVals adj ∪ stackNodes rest) \ insert x visited)
        (nodeWeight adj) ≤
      Finset.sum ((adjVals adj ∪ stackNodes ((Pass.pre, x) :: rest)) \ visited)
        (nodeWeight adj) :=
    Finset.sum_le_sum_of_subset hsub
  omega

theorem rtMeasure_expand_lt {T : Type} [DecidableEq T] (adj : List (T × List T))
    (x : T) (rest : List (Pass × T)) (visited : Finset T) (ns : List T)
    (hl : lookupAdj adj x = some ns) (hx : x ∉ visited) :
    rtMeasure adj (ns.map (fun n => (Pass.pre, n)) ++ (Pass.post, x) :: rest)
        (insert x visited) <
      rtMeasure adj ((Pass.pre, x) :: rest) visited := by
  simp only [rtMeasure, List.length_cons, List.length_append, List.length_map]
  have hxmem : x ∈ (adjVals adj ∪ stackNodes ((Pass.pre, x) :: rest)) \ visited := by
    rw [Finset.mem_sdiff]
    refine ⟨Finset.mem_union_right _ ?_, hx⟩
    simp [stackNodes]
  have hsub : (adjVals adj ∪
        stackNodes (ns.map (fun n => (Pass.pre, n)) ++ (Pass.post, x) :: rest)) \
        insert x visited ⊆
      ((adjVals adj ∪ stackNodes ((Pass.pre, x) :: rest)) \ visited).erase x := by
    intro y hy
    rw [Finset.mem_sdiff, Finset.mem_insert] at hy
    push_neg at hy
    obtain ⟨hyu, hyx, hyv⟩ := hy
    rw [Finset.mem_erase, Finset.mem_sdiff]
    refine ⟨hyx, ?_, hyv⟩
    rcases Finset.mem_union.1 hyu with h | h
    · exact Finset.mem_union_left _ h
    · rw [stackNodes, List.mem_toFinset, List.map_append, List.map_cons,
        List.mem_append, List.mem_cons, List.map_map] at h
      rcases h with h | h | h
      · rcases List.mem_map.1 h with ⟨n, hn, hny⟩
        have hny' : n = y := hny
        subst hny'
        exact Finset.mem_union_left _ (mem_adjVals_of_lookup hl hn)
      · exact absurd h hyx
      · apply Finset.mem_union_right
        rw [stackNodes, List.mem_toFinset, List.map_cons, List.mem_cons]
        exact Or.inr h
  have hsum : Finset.sum ((adjVals adj ∪
        stackNodes (ns.map (fun n => (Pass.pre, n)) ++ (Pass.post, x) :: rest)) \
        insert x visited) (nodeWeight adj) ≤
      Finset.sum (((adjVals adj ∪ stackNodes ((Pass.pre, x) :: rest)) \ visited).erase x)
        (nodeWeight adj) :=
    Finset.sum_le_sum_of_subset hsub
  have herase : Finset.sum
        (((adjVals adj ∪ stackNodes ((Pass.pre, x) :: rest)) \ visited).erase x)
        (nodeWeight adj) + nodeWeight adj x =
      Finset.sum ((adjVals adj ∪ stackNodes ((Pass.pre, x) :: rest)) \ visited)
        (nodeWeight adj) :=
    Finset.sum_erase_add
      ((adjVals adj ∪ stackNodes ((Pass.pre, x) :: rest)) \ visited) (nodeWeight adj) hxmem
  have hwt : nodeWeight adj x = ns.length + 2 := by
    simp [nodeWeight, lookupLen, hl]
  omega

theorem inv_step_post {T : Type} [DecidableEq T] {adj : List (T × List T)} {roots : List T}
    {out : List T} {x : T} {rest : List (Pass × T)} {visited : Finset T}
    (I : RTInv adj roots out ((Pass.post, x) :: rest) visited) :
    RTInv adj roots (out ++ [x]) rest visited := by
  have hxvis : x ∈ visited := I.postVisited x (List.mem_cons_self _ _)
  have hxout : x ∉ out := I.postNotOut x (List.mem_cons_self _ _)
  have hxpostrest : x ∉ postNodes rest := by
    have h := I.postNodup
    rw [postNodes_cons_post] at h
    exact (List.nodup_cons.1 h).1
  have hemitted : ∀ v, edgeRel adj x v → ¬ Reaches adj v x → v ∈ out := by
    intro v he hnr
    rcases I.guarded [] x rest rfl v he with h | h | h | ⟨hmem, hr⟩
    · exact h
    · cases h
    · cases h
    · exact absurd hr hnr
  refine
    { outNodup := ?_, outVisited := ?_, visitedReach := I.visitedReach,
      stackReach := ?_, postVisited := ?_, postNotOut := ?_, postNodup := ?_,
      visitedSplit := ?_, stackPaths := ?_, guarded := ?_, ordered := ?_,
      closure := ?_, rootsCovered := ?_ }
  · refine List.Nodup.append I.outNodup (List.nodup_singleton x) ?_
    intro a ha hax
    rw [List.mem_singleton] at hax
    subst hax
    exact hxout ha
  · intro y hy
    rcases List.mem_append.1 hy with h | h
    · exact I.outVisited y h
    · rw [List.mem_singleton] at h
      subst h
      exact hxvis
  · intro e he
    exact I.stackReach e (List.mem_cons_of_mem _ he)
  · intro y hy
    exact I.postVisited y (List.mem_cons_of_mem _ hy)
  · intro y hy
    have hyout : y ∉ out := I.postNotOut y (List.mem_cons_of_mem _ hy)
    have hyx : y ≠ x := by
      intro he
      subst he
      exact hxpostrest (mem_postNodes.2 hy)
    intro hmem
    rcases List.mem_append.1 hmem with h | h
    · exact hyout h
    · rw [List.mem_singleton] at h
      exact hyx h
  · have h := I.postNodup
    rw [postNodes_cons_post] at h
    exact (List.nodup_cons.1 h).2
  · intro y hy
    rcases I.visitedSplit y hy with h | h
    · exact Or.inl (List.mem_append_left _ h)
    · rcases List.mem_cons.1 h with h | h
      · injection h with _ h2
        subst h2
        exact Or.inl (List.mem_append_right _ (List.mem_singleton.2 rfl))
      · exact Or.inr h
  · intro s₁ w s₂ heq e he
    exact I.stackPaths ((Pass.post, x) :: s₁) w s₂ (by rw [heq, List.cons_append]) e
      (List.mem_cons_of_mem _ he)
  · intro s₁ u s₂ heq v he
    rcases I.guarded ((Pass.post, x) :: s₁) u s₂ (by rw [heq, List.cons_append]) v he with
      h | h | h | ⟨hmem, hr⟩
    · exact Or.inl (List.mem_append_left _ h)
    · rcases List.mem_cons.1 h with h | h
      · injection h with h1 _
        exact Pass.noConfusion h1
      · exact Or.inr (Or.inl h)
    · rcases List.mem_cons.1 h with h | h
      · injection h with _ h2
        subst h2
        exact Or.inl (List.mem_append_right _ (List.mem_singleton.2 rfl))
      · exact Or.inr (Or.inr (Or.inl h))
    · rcases List.mem_cons.1 hmem with h | h
      · injection h with _ h2
        subst h2
        exact Or.inl (List.mem_append_right _ (List.mem_singleton.2 rfl))
      · exact Or.inr (Or.inr (Or.inr ⟨h, hr⟩))
  · intro u hu v he hnr
    rcases List.mem_append.1 hu with h | h
    · exact (I.ordered u h v he hnr).append [x]
    · rw [List.mem_singleton] at h
      subst h
      exact Precedes.append_singleton (hemitted v he hnr) hxout
  · intro u hu v he
    rcases I.closure u hu v he with h | h
    · exact Or.inl h
    · rcases List.mem_cons.1 h with h | h
      · injection h with h1 _
        exact Pass.noConfusion h1
      · exact Or.inr h
  · intro r hr
    rcases I.rootsCovered r hr with h | h
    · exact Or.inl h
    · rcases List.mem_cons.1 h with h | h
      · injection h with h1 _
        exact Pass.noConfusion h1
      · exact Or.inr h

theorem inv_step_skip {T : Type} [DecidableEq T] {adj : List (T × List T)} {roots : List T}
    {out : List T} {x : T} {rest : List (Pass × T)} {visited : Finset T}
    (I : RTInv adj roots out ((Pass.pre, x) :: rest) visited) (hx : x ∈ visited) :
    RTInv adj roots out rest visited := by
  have hsp_rest : ∀ s₁ w s₂, rest = s₁ ++ (Pass.post, w) :: s₂ →
      ∀ e ∈ s₁, Reaches adj w (Prod.snd e) := by
    intro s₁ w s₂ heq e he
    exact I.stackPaths ((Pass.pre, x) :: s₁) w s₂ (by rw [heq, List.cons_append]) e
      (List.mem_cons_of_mem _ he)
  refine
    { outNodup := I.outNodup, outVisited := I.outVisited,
      visitedReach := I.visitedReach, stackReach := ?_, postVisited := ?_,
      postNotOut := ?_, postNodup := ?_, visitedSplit := ?_, stackPaths := hsp_rest,
      guarded := ?_, ordered := I.ordered, closure := ?_, rootsCovered := ?_ }
  · intro e he
    exact I.stackReach e (List.mem_cons_of_mem _ he)
  · intro y hy
    exact I.postVisited y (List.mem_cons_of_mem _ hy)
  · intro y hy
    exact I.postNotOut y (List.mem_cons_of_mem _ hy)
  · have h := I.postNodup
    rwa [postNodes_cons_pre] at h
  · intro y hy
    rcases I.visitedSplit y hy with h | h
    · exact Or.inl h
    · rcases List.mem_cons.1 h with h | h
      · injection h with h1 _
        exact Pass.noConfusion h1
      · exact Or.inr h
  · intro s₁ u s₂ heq v he
    rcases I.guarded ((Pass.pre, x) :: s₁) u s₂ (by rw [heq, List.cons_append]) v he with
      h | h | h | ⟨hmem, hr⟩
    · exact Or.inl h
    · rcases List.mem_cons.1 h with h | h
      · -- the popped Pre entry was the pending occurrence of v, and v = x is visited
        injection h with _ h2
        subst h2
        rcases I.visitedSplit v hx with hout | hpost
        · exact Or.inl hout
        · have hpostrest : (Pass.post, v) ∈ rest := by
            rcases List.mem_cons.1 hpost with h' | h'
            · injection h' with h1 _
              exact Pass.noConfusion h1
            · exact h'
          have hsplit : (Pass.post, v) ∈ s₁ ++ (Pass.post, u) :: s₂ := heq ▸ hpostrest
          rcases List.mem_append.1 hsplit with h' | h'
          · exact Or.inr (Or.inr (Or.inl h'))
          · rcases List.mem_cons.1 h' with h' | h'
            · injection h' with _ h2
              subst h2
              exact Or.inr (Or.inr (Or.inr ⟨hpostrest, Relation.ReflTransGen.refl⟩))
            · obtain ⟨t₁, t₂, hs₂⟩ := List.append_of_mem h'
              have hdecomp : rest = (s₁ ++ (Pass.post, u) :: t₁) ++ (Pass.post, v) :: t₂ := by
                rw [heq, hs₂]
                simp
              have hru : Reaches adj v u :=
                hsp_rest (s₁ ++ (Pass.post, u) :: t₁) v t₂ hdecomp (Pass.post, u)
                  (List.mem_append_right _ (List.mem_cons_self _ _))
              exact Or.inr (Or.inr (Or.inr ⟨hpostrest, hru⟩))
      · exact Or.inr (Or.inl h)
    · rcases List.mem_cons.1 h with h | h
      · injection h with h1 _
        exact Pass.noConfusion h1
      · exact Or.inr (Or.inr (Or.inl h))
    · rcases List.mem_cons.1 hmem with h | h
      · injection h with h1 _
        exact Pass.noConfusion h1
      · exact Or.inr (Or.inr (Or.inr ⟨h, hr⟩))
  · intro u hu v he
    rcases I.closure u hu v he with h | h
    · exact Or.inl h
    · rcases List.mem_cons.1 h with h | h
      · injection h with _ h2
        subst h2
        exact Or.inl hx
      · exact Or.inr h
  · intro r hr
    rcases I.rootsCovered r hr with h | h
    · exact Or.inl h
    · rcases List.mem_cons.1 h with h | h
      · injection h with _ h2
        subst h2
        exact Or.inl hx
      · exact Or.inr h

theorem inv_step_emit {T : Type} [DecidableEq T] {adj : List (T × List T)} {roots : List T}
    {out : List T} {x : T} {rest : List (Pass × T)} {visited : Finset T}
    (I : RTInv adj roots out ((Pass.pre, x) :: rest) visited) (hx : x ∉ visited)
    (hl : lookupAdj adj x = none) :
    RTInv adj roots (out ++ [x]) rest (insert x visited) := by
  have hxout : x ∉ out := fun h => hx (I.outVisited x h)
  have hnoedge : ∀ v, ¬ edgeRel adj x v := by
    intro v ⟨vs, hvs, _⟩
    rw [hl] at hvs
    cases hvs
  refine
    { outNodup := ?_, outVisited := ?_, visitedReach := ?_, stackReach := ?_,
      postVisited := ?_, postNotOut := ?_, postNodup := ?_, visitedSplit := ?_,
      stackPaths := ?_, guarded := ?_, ordered := ?_, closure := ?_, rootsCovered := ?_ }
  · refine List.Nodup.append I.outNodup (List.nodup_singleton x) ?_
    intro a ha hax
    rw [List.mem_singleton] at hax
    subst hax
    exact hxout ha
  · intro y hy
    rcases List.mem_append.1 hy with h | h
    · exact Finset.mem_insert_of_mem (I.outVisited y h)
    · rw [List.mem_singleton] at h
      subst h
      exact Finset.mem_insert_self _ _
  · intro y hy
    rcases Finset.mem_insert.1 hy with h | h
    · subst h
      exact I.stackReach (Pass.pre, y) (List.mem_cons_self _ _)
    · exact I.visitedReach y h
  · intro e he
    exact I.stackReach e (List.mem_cons_of_mem _ he)
  · intro y hy
    exact Finset.mem_insert_of_mem (I.postVisited y (List.mem_cons_of_mem _ hy))
  · intro y hy
    have hyvis : y ∈ visited := I.postVisited y (List.mem_cons_of_mem _ hy)
    have hyout : y ∉ out := I.postNotOut y (List.mem_cons_of_mem _ hy)
    intro hmem
    rcases List.mem_append.1 hmem with h | h
    · exact hyout h
    · rw [List.mem_singleton] at h
      subst h
      exact hx hyvis
  · have h := I.postNodup
    rwa [postNodes_cons_pre] at h
  · intro y hy
    rcases Finset.mem_insert.1 hy with h | h
    · subst h
      exact Or.inl (List.mem_append_right _ (List.mem_singleton.2 rfl))
    · rcases I.visitedSplit y h with h' | h'
      · exact Or.inl (List.mem_append_left _ h')
      · rcases List.mem_cons.1 h' with h' | h'
        · injection h' with h1 _
          exact Pass.noConfusion h1
        · exact Or.inr h'
  · intro s₁ w s₂ heq e he
    exact I.stackPaths ((Pass.pre, x) :: s₁) w s₂ (by rw [heq, List.cons_append]) e
      (List.mem_cons_of_mem _ he)
  · intro s₁ u s₂ heq v he
    rcases I.guarded ((Pass.pre, x) :: s₁) u s₂ (by rw [heq, List.cons_append]) v he with
      h | h | h | ⟨hmem, hr⟩
    · exact Or.inl (List.mem_append_left _ h)
    · rcases List.mem_cons.1 h with h | h
      · injection h with _ h2
        subst h2
        exact Or.inl (List.mem_append_right _ (List.mem_singleton.2 rfl))
      · exact Or.inr (Or.inl h)
    · rcases List.mem_cons.1 h with h | h
      · injection h with h1 _
        exact Pass.noConfusion h1
      · exact Or.inr (Or.inr (Or.inl h))
    · rcases List.mem_cons.1 hmem with h | h
      · injection h with h1 _
        exact Pass.noConfusion h1
      · exact Or.inr (Or.inr (Or.inr ⟨h, hr⟩))
  · intro u hu v he hnr
    rcases List.mem_append.1 hu with h | h
    · exact (I.ordered u h v he hnr).append [x]
    · rw [List.mem_singleton] at h
      subst h
      exact absurd he (hnoedge v)
  · intro u hu v he
    rcases Finset.mem_insert.1 hu with h | h
    · subst h
      exact absurd he (hnoedge v)
    · rcases I.closure u h v he with h' | h'
      · exact Or.inl (Finset.mem_insert_of_mem h')
      · rcases List.mem_cons.1 h' with h' | h'
        · injection h' with _ h2
          subst h2
          exact Or.inl (Finset.mem_insert_self _ _)
        · exact Or.inr h'
  · intro r hr
    rcases I.rootsCovered r hr with h | h
    · exact Or.inl (Finset.mem_insert_of_mem h)
    · rcases List.mem_cons.1 h with h | h
      · injection h with _ h2
        subst h2
        exact Or.inl (Finset.mem_insert_self _ _)
      · exact Or.inr h

theorem inv_step_expand {T : Type} [DecidableEq T] {adj : List (T × List T)}
    {roots : List T} {out : List T} {x : T} {rest : List (Pass × T)} {visited : Finset T}
    {ns : List T} (I : RTInv adj roots out ((Pass.pre, x) :: rest) visited)
    (hx : x ∉ visited) (hl : lookupAdj adj x = some ns) :
    RTInv adj roots out (ns.map (fun n => (Pass.pre, n)) ++ (Pass.post, x) :: rest)
      (insert x visited) := by
  have hxout : x ∉ out := fun h => hx (I.outVisited x h)
  have hedge : ∀ v, v ∈ ns → edgeRel adj x v := fun v hv => ⟨ns, hl, hv⟩
  have hedge' : ∀ v, edgeRel adj x v → v ∈ ns := by
    intro v ⟨vs, hvs, hv⟩
    rw [hl] at hvs
    injection hvs with hvs
    subst hvs
    exact hv
  have hxreach : ∃ r ∈ roots, Reaches adj r x :=
    I.stackReach (Pass.pre, x) (List.mem_cons_self _ _)
  have hpostx : (Pass.post, x) ∉ rest := by
    intro h
    exact hx (I.postVisited x (List.mem_cons_of_mem _ h))
  have hmemNew : ∀ e ∈ rest,
      e ∈ ns.map (fun n => (Pass.pre, n)) ++ (Pass.post, x) :: rest := fun e he =>
    List.mem_append_right _ (List.mem_cons_of_mem _ he)
  have hpostxNew :
      (Pass.post, x) ∈ ns.map (fun n => (Pass.pre, n)) ++ (Pass.post, x) :: rest :=
    List.mem_append_right _ (List.mem_cons_self _ _)
  refine
    { outNodup := I.outNodup, outVisited := ?_, visitedReach := ?_, stackReach := ?_,
      postVisited := ?_, postNotOut := ?_, postNodup := ?_, visitedSplit := ?_,
      stackPaths := ?_, guarded := ?_, ordered := I.ordered, closure := ?_,
      rootsCovered := ?_ }
  · intro y hy
    exact Finset.mem_insert_of_mem (I.outVisited y hy)
  · intro y hy
    rcases Finset.mem_insert.1 hy with h | h
    · subst h
      exact hxreach
    · exact I.visitedReach y h
  · intro e he
    rcases List.mem_append.1 he with h | h
    · rcases List.mem_map.1 h with ⟨n, hn, hne⟩
      subst hne
      obtain ⟨r, hr, hrx⟩ := hxreach
      exact ⟨r, hr, hrx.tail (hedge n hn)⟩
    · rcases List.mem_cons.1 h with h | h
      · subst h
        exact hxreach
      · exact I.stackReach e (List.mem_cons_of_mem _ h)
  · intro y hy
    rcases List.mem_append.1 hy with h | h
    · rcases List.mem_map.1 h with ⟨n, _, hne⟩
      injection hne with h1 _
      exact Pass.noConfusion h1
    · rcases List.mem_cons.1 h with h | h
      · injection h with _ h2
        subst h2
        exact Finset.mem_insert_self _ _
      · exact Finset.mem_insert_of_mem (I.postVisited y (List.mem_cons_of_mem _ h))
  · intro y hy
    rcases List.mem_append.1 hy with h | h
    · rcases List.mem_map.1 h with ⟨n, _, hne⟩
      injection hne with h1 _
      exact Pass.noConfusion h1
    · rcases List.mem_cons.1 h with h | h
      · injection h with _ h2
        subst h2
        exact hxout
      · exact I.postNotOut y (List.mem_cons_of_mem _ h)
  · rw [postNodes_append, postNodes_map_pre, postNodes_cons_post, List.nil_append]
    refine List.nodup_cons.2 ⟨?_, ?_⟩
    · intro h
      exact hpostx (mem_postNodes.1 h)
    · have h := I.postNodup
      rwa [postNodes_cons_pre] at h
  · intro y hy
    rcases Finset.mem_insert.1 hy with h | h
    · subst h
      exact Or.inr hpostxNew
    · rcases I.visitedSplit y h with h' | h'
      · exact Or.inl h'
      · rcases List.mem_cons.1 h' with h' | h'
        · injection h' with h1 _
          exact Pass.noConfusion h1
        · exact Or.inr (hmemNew _ h')
  · intro s₁ w s₂ heq e he
    rcases split_post (ns.map (fun n => (Pass.pre, n))) (map_pre_all_pre ns) x rest s₁ s₂ w
        heq with ⟨hs₁, hw, _⟩ | ⟨r₁, hs₁, hrest⟩
    · subst hs₁
      subst hw
      rcases List.mem_map.1 he with ⟨n, hn, hne⟩
      subst hne
      exact Relation.ReflTransGen.single (hedge n hn)
    · have hold : ∀ e ∈ (Pass.pre, x) :: r₁, Reaches adj w (Prod.snd e) :=
        I.stackPaths ((Pass.pre, x) :: r₁) w s₂ (by rw [hrest, List.cons_append])
      have hwx : Reaches adj w x := hold (Pass.pre, x) (List.mem_cons_self _ _)
      subst hs₁
      rcases List.mem_append.1 he with h | h
      · rcases List.mem_map.1 h with ⟨n, hn, hne⟩
        subst hne
        exact hwx.tail (hedge n hn)
      · rcases List.mem_cons.1 h with h | h
        · subst h
          exact hwx
        · exact hold e (List.mem_cons_of_mem _ h)
  · intro s₁ u s₂ heq v he
    rcases split_post (ns.map (fun n => (Pass.pre, n))) (map_pre_all_pre ns) x rest s₁ s₂ u
        heq with ⟨hs₁, hu, _⟩ | ⟨r₁, hs₁, hrest⟩
    · subst hs₁
      subst hu
      exact Or.inr (Or.inl (List.mem_map.2 ⟨v, hedge' v he, rfl⟩))
    · subst hs₁
      rcases I.guarded ((Pass.pre, x) :: r₁) u s₂ (by rw [hrest, List.cons_append]) v he with
        h | h | h | ⟨hmem, hr⟩
      · exact Or.inl h
      · rcases List.mem_cons.1 h with h | h
        · injection h with _ h2
          subst h2
          exact Or.inr (Or.inr (Or.inl
            (List.mem_append_right _ (List.mem_cons_self _ _))))
        · exact Or.inr (Or.inl (List.mem_append_right _ (List.mem_cons_of_mem _ h)))
      · rcases List.mem_cons.1 h with h | h
        · injection h with h1 _
          exact Pass.noConfusion h1
        · exact Or.inr (Or.inr (Or.inl
            (List.mem_append_right _ (List.mem_cons_of_mem _ h))))
      · rcases List.mem_cons.1 hmem with h | h
        · injection h with h1 _
          exact Pass.noConfusion h1
        · exact Or.inr (Or.inr (Or.inr ⟨hmemNew _ h, hr⟩))
  · intro u hu v he
    rcases Finset.mem_insert.1 hu with h | h
    · subst h
      exact Or.inr (List.mem_append_left _ (List.mem_map.2 ⟨v, hedge' v he, rfl⟩))
    · rcases I.closure u h v he with h' | h'
      · exact Or.inl (Finset.mem_insert_of_mem h')
      · rcases List.mem_cons.1 h' with h' | h'
        · injection h' with _ h2
          subst h2
          exact Or.inl (Finset.mem_insert_self _ _)
        · exact Or.inr (hmemNew _ h')
  · intro r hr
    rcases I.rootsCovered r hr with h | h
    · exact Or.inl (Finset.mem_insert_of_mem h)
    · rcases List.mem_cons.1 h with h | h
      · injection h with _ h2
        subst h2
        exact Or.inl (Finset.mem_insert_self _ _)
      · exact Or.inr (hmemNew _ h)

theorem rt_final {T : Type} [DecidableEq T] {adj : List (T × List T)} {roots : List T}
    {out : List T} {visited : Finset T} (I : RTInv adj roots out [] visited) :
    out.Nodup ∧ (∀ x, x ∈ out ↔ ∃ r ∈ roots, Reaches adj r x) ∧
    (∀ u v, edgeRel adj u v → ¬ Reaches adj v u → u ∈ out → Precedes out v u) := by
  have hclosed : ∀ y ∈ visited, ∀ v, edgeRel adj y v → v ∈ visited := by
    intro y hy v he
    rcases I.closure y hy v he with h | h
    · exact h
    · cases h
  have hvisited_out : ∀ y ∈ visited, y ∈ out := by
    intro y hy
    rcases I.visitedSplit y hy with h | h
    · exact h
    · cases h
  refine ⟨I.outNodup, ?_, ?_⟩
  · intro x
    constructor
    · intro hx
      exact I.visitedReach x (I.outVisited x hx)
    · rintro ⟨r, hr, hreach⟩
      have hrvis : r ∈ visited := by
        rcases I.rootsCovered r hr with h | h
        · exact h
        · cases h
      have hxvis : x ∈ visited := by
        induction hreach with
        | refl => exact hrvis
        | tail _ he ih => exact hclosed _ ih _ he
      exact hvisited_out x hxvis
  · intro u v he hnr hu
    exact I.ordered u hu v he hnr

theorem rt_init {T : Type} [DecidableEq T] (m : AdjacencyMap T) :
    RTInv m.adjacency_map m.roots [] (m.roots.map (fun r => (Pass.pre, r))) ∅ := by
  have hnopost : ∀ y : T, (Pass.post, y) ∉ m.roots.map (fun r => (Pass.pre, r)) := by
    intro y h
    rcases List.mem_map.1 h with ⟨r, _, hre⟩
    injection hre with h1 _
    exact Pass.noConfusion h1
  refine
    { outNodup := List.nodup_nil, outVisited := ?_, visitedReach := ?_, stackReach := ?_,
      postVisited := ?_, postNotOut := ?_, postNodup := ?_, visitedSplit := ?_,
      stackPaths := ?_, guarded := ?_, ordered := ?_, closure := ?_, rootsCovered := ?_ }
  · intro y hy
    cases hy
  · intro y hy
    exact absurd hy (Finset.not_mem_empty y)
  · intro e he
    rcases List.mem_map.1 he with ⟨r, hr, hre⟩
    subst hre
    exact ⟨r, hr, Relation.ReflTransGen.refl⟩
  · intro y hy
    exact absurd hy (hnopost y)
  · intro y hy
    exact absurd hy (hnopost y)
  · rw [postNodes_map_pre]
    exact List.nodup_nil
  · intro y hy
    exact absurd hy (Finset.not_mem_empty y)
  · intro s₁ w s₂ heq
    exfalso
    have hmem : (Pass.post, w) ∈ m.roots.map (fun r => (Pass.pre, r)) := by
      rw [heq]
      exact List.mem_append_right _ (List.mem_cons_self _ _)
    exact hnopost w hmem
  · intro s₁ u s₂ heq v _
    exfalso
    have hmem : (Pass.post, u) ∈ m.roots.map (fun r => (Pass.pre, r)) := by
      rw [heq]
      exact List.mem_append_right _ (List.mem_cons_self _ _)
    exact hnopost u hmem
  · intro u hu
    cases hu
  · intro u hu
    exact absurd hu (Finset.not_mem_empty u)
  · intro r hr
    exact Or.inr (List.mem_map.2 ⟨r, hr, rfl⟩)

theorem rt_run_good {T : Type} [DecidableEq T] (adj : List (T × List T)) (roots : List T)
    (stack : List (Pass × T)) (visited : Finset T) (out : List T)
    (I : RTInv adj roots out stack visited) :
    (out ++ rtRun adj stack visited).Nodup ∧
    (∀ x, x ∈ out ++ rtRun adj stack visited ↔ ∃ r ∈ roots, Reaches adj r x) ∧
    (∀ u v, edgeRel adj u v → ¬ Reaches adj v u → u ∈ out ++ rtRun adj stack visited →
      Precedes (out ++ rtRun adj stack visited) v u) := by
  match stack with
  | [] =>
    rw [rtRun_nil]
    have h := rt_final I
    simpa using h
  | (Pass.post, x) :: rest =>
    rw [rtRun_post, List.append_cons]
    exact rt_run_good adj roots rest visited (out ++ [x]) (inv_step_post I)
  | (Pass.pre, x) :: rest =>
    by_cases hx : x ∈ visited
    · rw [rtRun_pre_visited adj x rest visited hx]
      exact rt_run_good adj roots rest visited out (inv_step_skip I hx)
    · match hl : lookupAdj adj x with
      | none =>
        rw [rtRun_pre_none adj x rest visited hx hl, List.append_cons]
        exact rt_run_good adj roots rest (insert x visited) (out ++ [x])
          (inv_step_emit I hx hl)
      | some ns =>
        rw [rtRun_pre_some adj x rest visited hx ns hl]
        exact rt_run_good adj roots
          (ns.map (fun n => (Pass.pre, n)) ++ (Pass.post, x) :: rest)
          (insert x visited) out (inv_step_expand I hx hl)
termination_by rtMeasure adj stack visited
decreasing_by
  · exact rtMeasure_tail_lt adj Pass.post x rest visited
  · exact rtMeasure_tail_lt adj Pass.pre x rest visited
  · exact rtMeasure_tail_insert_lt adj x rest visited
  · exact rtMeasure_expand_lt adj x rest visited ns hl hx

theorem reverse_topological_sound {T : Type} [DecidableEq T] (m : AdjacencyMap T) :
    (reverseTopological m).Nodup ∧
    (∀ x, x ∈ reverseTopological m ↔ reachableFrom m x) ∧
    (∀ u v, edgeRel m.adjacency_map u v → ¬ Reaches m.adjacency_map v u →
      u ∈ reverseTopological m → Precedes (reverseTopological m) v u) := by
  have h := rt_run_good m.adjacency_map m.roots (m.roots.map (fun r => (Pass.pre, r))) ∅
    [] (rt_init m)
  simpa [reverseTopological, reachableFrom] using h

theorem reverse_topological_sound_witness :
    edgeRel exMap.adjacency_map 0 1 ∧ ¬ Reaches exMap.adjacency_map 1 0 ∧
    0 ∈ reverseTopological exMap ∧ Precedes (reverseTopological exMap) 1 0 := by
  have hadj : exMap.adjacency_map = [(0, [1, 2]), (1, [3]), (2, [3])] := by
    rw [exMap_def]
  have hedge : edgeRel exMap.adjacency_map 0 1 := by
    rw [hadj]
    decide
  have hnr : ¬ Reaches exMap.adjacency_map 1 0 := by
    rw [hadj]
    intro h
    rcases Relation.ReflTransGen.cases_head h with heq | ⟨w, hw, h2⟩
    · exact absurd heq (by decide)
    · have hw3 : w = 3 := by
        obtain ⟨vs, hvs, hm⟩ := hw
        simp [lookupAdj] at hvs
        subst hvs
        simpa using hm
      subst hw3
      rcases Relation.ReflTransGen.cases_head h2 with heq | ⟨w2, hw2, _⟩
      · exact absurd heq (by decide)
      · obtain ⟨vs, hvs, _⟩ := hw2
        simp [lookupAdj] at hvs
  have hmem : 0 ∈ reverseTopological exMap := by
    rw [rt_exMap_eval]
    decide
  exact ⟨hedge, hnr, hmem,
    (reverse_topological_sound exMap).2.2 0 1 hedge hnr hmem⟩
